import Mathlib

/-!
# Verification of the travel-tech room-inventory text codecs

Shallow embedding of the two text-processing routines of the repository:

* the amenities codec of `src/app/api/rooms/route.ts` (`mapDbRowToHotelRoom`'s
  amenities branch and the PostgreSQL-array formatter used by `POST`), and
* the CSV room transcoder of `src/components/amenities/hotel-rooms-table.tsx`
  (`convertToCSV` and `parseCSV`).

JavaScript strings are embedded as `List Char`; the JavaScript string
operations used by the source (`trim`, `split` on a one-character separator,
the two `replace` regexes, `parseInt`, `JSON.parse`, number `toString`) are
modelled explicitly below.  All definitions are executable so that concrete
witnesses evaluate by `decide` / `rfl`.
-/

namespace TravelTech

/-- The ECMAScript `TrimString` character set (WhiteSpace ∪ LineTerminator),
by code point: TAB LF VT FF CR SP NBSP and the Unicode `Zs` characters plus
BOM and the two line separators.  Used by `String.prototype.trim` and by the
whitespace-skipping of `parseInt`. -/
def wsChar (c : Char) : Bool :=
  decide (c.toNat ∈ [9, 10, 11, 12, 13, 32, 160, 5760, 8192, 8193, 8194, 8195,
    8196, 8197, 8198, 8199, 8200, 8201, 8202, 8232, 8233, 8239, 8287, 12288, 65279])

/-- ECMAScript `LineTerminator` characters: LF, CR, LS, PS.  A JavaScript
regular-expression `.` (without the `s` flag) matches any character except
these. -/
def isLineTerm (c : Char) : Bool :=
  decide (c.toNat ∈ [10, 13, 8232, 8233])

/-- `String.prototype.trim`. -/
def jsTrim (s : List Char) : List Char :=
  ((s.dropWhile wsChar).reverse.dropWhile wsChar).reverse

/-- `String.prototype.split` with a one-character separator: splits at every
occurrence of `sep` (`"".split(sep) = [""]`, `",".split(",") = ["", ""]`). -/
def splitChar (sep : Char) : List Char → List (List Char)
  | [] => [[]]
  | c :: rest =>
    match splitChar sep rest with
    | [] => [[c]]
    | p :: ps => if c = sep then [] :: p :: ps else (c :: p) :: ps

/-- `value.replace(/^"|"$/g, "")`: remove one leading and one trailing
double-quote character, when present. -/
def stripLeadQ (s : List Char) : List Char :=
  match s with
  | c :: t => if c = '"' then t else c :: t
  | [] => []

def stripTrailQ (s : List Char) : List Char :=
  match s.getLast? with
  | some c => if c = '"' then s.dropLast else s
  | none => s

def stripQuotes (s : List Char) : List Char := stripTrailQ (stripLeadQ s)

/-- `value.replace(/""/g, '"')`: left-to-right, non-overlapping replacement of
each doubled double-quote by a single one. -/
def collapseDoubles : List Char → List Char
  | [] => []
  | [c] => [c]
  | c :: d :: rest =>
    if c = '"' ∧ d = '"' then '"' :: collapseDoubles rest
    else c :: collapseDoubles (d :: rest)

/-- `Array.prototype.join(sep)`: empty array gives `""`, otherwise the parts
interleaved with the separator. -/
def joinSepL (sep : List Char) : List (List Char) → List Char
  | [] => []
  | [p] => p
  | p :: ps => p ++ sep ++ joinSepL sep ps

/-- Numeric value of a list of decimal digit characters. -/
def digitsToNat (ds : List Char) : Nat :=
  ds.foldl (fun a c => 10 * a + (c.toNat - 48)) 0

/-- `parseInt(value, 10)`: skip leading whitespace, optional sign, then the
longest decimal-digit prefix; `none` models the `NaN` result when no digit is
found. -/
def parseIntCore (u : List Char) : Option Int :=
  if (u.takeWhile Char.isDigit).isEmpty then none
  else some (digitsToNat (u.takeWhile Char.isDigit) : Int)

def parseIntJs (s : List Char) : Option Int :=
  match s.dropWhile wsChar with
  | '-' :: r => (parseIntCore r).map (fun n => -n)
  | '+' :: r => parseIntCore r
  | t => parseIntCore t

/-- Decimal digits of a natural number, most significant first (fuel-indexed
so that the definition is structural and kernel-reducible). -/
def natToCharsAux : Nat → Nat → List Char
  | 0, _ => []
  | fuel + 1, n =>
    if n < 10 then [Char.ofNat (48 + n)]
    else natToCharsAux fuel (n / 10) ++ [Char.ofNat (48 + n % 10)]

/-- Decimal digits of a natural number (e.g. `natToChars 105 = ['1','0','5']`). -/
def natToChars (n : Nat) : List Char :=
  natToCharsAux (n + 1) n

/-- `Number.prototype.toString` on an integer-valued number. -/
def intToChars (k : Int) : List Char :=
  if k < 0 then '-' :: natToChars k.natAbs else natToChars k.toNat

/-! ## A model of `JSON.parse`

`JSON.parse` is the ECMAScript built-in; the decoder branches of the source
call it and catch its exceptions.  The grammar below follows the JSON
specification: values are `null`, booleans, numbers, strings (with the JSON
escape sequences), arrays and objects; `none` models a thrown `SyntaxError`.
Numbers are kept as their source text, which is all the claims need.  A
`\uXXXX` escape denoting a lone surrogate is mapped to the null character
(Lean `Char` cannot represent lone surrogates); no claim exercises that case. -/

inductive Jv where
  | jnull : Jv
  | jbool : Bool → Jv
  | jnum : List Char → Jv
  | jstr : List Char → Jv
  | jarr : List Jv → Jv
  | jobj : List (List Char × Jv) → Jv

/-- JSON insignificant whitespace: space, TAB, LF, CR. -/
def jsonWs (c : Char) : Bool :=
  decide (c.toNat ∈ [9, 10, 13, 32])

def jsonSkipWs (s : List Char) : List Char := s.dropWhile jsonWs

/-- Value of a hexadecimal digit character. -/
def hexVal (c : Char) : Option Nat :=
  if c.isDigit then some (c.toNat - 48)
  else if 'a' ≤ c ∧ c ≤ 'f' then some (c.toNat - 87)
  else if 'A' ≤ c ∧ c ≤ 'F' then some (c.toNat - 55)
  else none

/-- JSON string body, entered after the opening quote: returns the decoded
contents and the input remaining after the closing quote.  Raw control
characters and invalid escapes are syntax errors. -/
def parseStringBody : List Char → Option (List Char × List Char)
  | [] => none
  | c :: rest =>
    if c = '"' then some ([], rest)
    else if c = '\\' then
      match rest with
      | [] => none
      | e :: rest2 =>
        if e = '"' then (parseStringBody rest2).map (fun p => ('"' :: p.1, p.2))
        else if e = '\\' then (parseStringBody rest2).map (fun p => ('\\' :: p.1, p.2))
        else if e = '/' then (parseStringBody rest2).map (fun p => ('/' :: p.1, p.2))
        else if e = 'b' then (parseStringBody rest2).map (fun p => ('\x08' :: p.1, p.2))
        else if e = 'f' then (parseStringBody rest2).map (fun p => ('\x0c' :: p.1, p.2))
        else if e = 'n' then (parseStringBody rest2).map (fun p => ('\n' :: p.1, p.2))
        else if e = 'r' then (parseStringBody rest2).map (fun p => ('\x0d' :: p.1, p.2))
        else if e = 't' then (parseStringBody rest2).map (fun p => ('\t' :: p.1, p.2))
        else if e = 'u' then
          match rest2 with
          | h1 :: h2 :: h3 :: h4 :: r2 =>
            match hexVal h1, hexVal h2, hexVal h3, hexVal h4 with
            | some a, some b, some c, some d =>
              (parseStringBody r2).map
                (fun p => (Char.ofNat (4096 * a + 256 * b + 16 * c + d) :: p.1, p.2))
            | _, _, _, _ => none
          | _ => none
        else none
    else if c.toNat < 32 then none
    else (parseStringBody rest).map (fun p => (c :: p.1, p.2))

/-- JSON number token: `-? int frac? exp?`; returns the consumed source text
and the rest. -/
def parseNumber (cs : List Char) : Option (List Char × List Char) :=
  let intPart : List Char → Option (List Char × List Char) := fun u =>
    match u with
    | '0' :: r => some (['0'], r)
    | c :: _ =>
      if c.isDigit then
        some (u.takeWhile Char.isDigit, u.dropWhile Char.isDigit)
      else none
    | [] => none
  let digits1 : List Char → Option (List Char × List Char) := fun u =>
    let ds := u.takeWhile Char.isDigit
    if ds.isEmpty then none else some (ds, u.dropWhile Char.isDigit)
  let (sign, r1) :=
    match cs with
    | '-' :: r => (['-'], r)
    | _ => (([] : List Char), cs)
  match intPart r1 with
  | none => none
  | some (ip, r2) =>
    let (fp, r3) :=
      match r2 with
      | '.' :: rf =>
        match digits1 rf with
        | some (ds, r') => ('.' :: ds, r')
        | none => ([], '.' :: rf)
      | _ => ([], r2)
    if fp.isEmpty ∧ r2 ≠ r3 then none else
    match r3 with
    | 'e' :: re | 'E' :: re =>
      let (es, r4) :=
        match re with
        | '-' :: rr => (['-'], rr)
        | '+' :: rr => (['+'], rr)
        | _ => (([] : List Char), re)
      match digits1 r4 with
      | some (ds, r5) => some (sign ++ ip ++ fp ++ 'e' :: es ++ ds, r5)
      | none => none
    | _ => some (sign ++ ip ++ fp, r3)

/-- Mode tag for the single fuel-indexed JSON parsing function (value /
object body / object members / array body / array elements). -/
inductive PMode where
  | pv | pob | pmem | pab | pel

/-- Recursive-descent JSON parser, structural on its fuel so that it
kernel-reduces.  `pob`/`pab` are entered just after `{` / `[` with leading
whitespace skipped; `pmem`/`pel` return the accumulated `jobj` / `jarr`. -/
def parseJ : Nat → PMode → List Char → Option (Jv × List Char)
  | 0, _, _ => none
  | fuel + 1, .pv, cs =>
    match cs with
    | 'n' :: 'u' :: 'l' :: 'l' :: r => some (.jnull, r)
    | 't' :: 'r' :: 'u' :: 'e' :: r => some (.jbool true, r)
    | 'f' :: 'a' :: 'l' :: 's' :: 'e' :: r => some (.jbool false, r)
    | '"' :: r => (parseStringBody r).map (fun p => (.jstr p.1, p.2))
    | '{' :: r => parseJ fuel .pob (jsonSkipWs r)
    | '[' :: r => parseJ fuel .pab (jsonSkipWs r)
    | c :: r =>
      if c = '-' ∨ c.isDigit then
        (parseNumber (c :: r)).map (fun p => (.jnum p.1, p.2))
      else none
    | [] => none
  | fuel + 1, .pob, cs =>
    match cs with
    | '}' :: r => some (.jobj [], r)
    | _ => parseJ fuel .pmem cs
  | fuel + 1, .pmem, cs =>
    match cs with
    | '"' :: r =>
      match parseStringBody r with
      | none => none
      | some (key, r2) =>
        match jsonSkipWs r2 with
        | ':' :: r3 =>
          match parseJ fuel .pv (jsonSkipWs r3) with
          | none => none
          | some (v, r4) =>
            match jsonSkipWs r4 with
            | ',' :: r5 =>
              match parseJ fuel .pmem (jsonSkipWs r5) with
              | some (.jobj kvs, r6) => some (.jobj ((key, v) :: kvs), r6)
              | _ => none
            | '}' :: r5 => some (.jobj [(key, v)], r5)
            | _ => none
        | _ => none
    | _ => none
  | fuel + 1, .pab, cs =>
    match cs with
    | ']' :: r => some (.jarr [], r)
    | _ => parseJ fuel .pel cs
  | fuel + 1, .pel, cs =>
    match parseJ fuel .pv cs with
    | none => none
    | some (v, r) =>
      match jsonSkipWs r with
      | ',' :: r2 =>
        match parseJ fuel .pel (jsonSkipWs r2) with
        | some (.jarr xs, r3) => some (.jarr (v :: xs), r3)
        | _ => none
      | ']' :: r2 => some (.jarr [v], r2)
      | _ => none

/-- `JSON.parse`: skip surrounding whitespace, parse one value, require the
input to be exhausted; `none` models a thrown `SyntaxError`. -/
def jsonParse (s : List Char) : Option Jv :=
  match parseJ (s.length + 2) .pv (jsonSkipWs s) with
  | some (v, rest) => if jsonSkipWs rest = [] then some v else none
  | none => none

/-! ## The amenities codec (`src/app/api/rooms/route.ts`)

Encoder: the `amenitiesArray` expression of `POST` (the import route repeats
it verbatim).  Decoder: the `typeof row.amenities === "string"` branch of
`mapDbRowToHotelRoom`. -/

/-- `f.replace(/"/g, '\\"')`: escape each double quote with a backslash. -/
def bsEscape (f : List Char) : List Char :=
  f.foldr (fun c acc => if c = '"' then '\\' :: '"' :: acc else c :: acc) []

/-- A double-quote-wrapped string, the shape of each encoded array element. -/
def wrapQ (f : List Char) : List Char := '"' :: f ++ ['"']

/-- The PostgreSQL-array formatter:
`facilitiesArray.length > 0 ? `{${facilitiesArray.map(f => `"${f.replace(/"/g,'\\"')}"`).join(",")}}` : "{}"`. -/
def encodeAmenities (fs : List (List Char)) : List Char :=
  if fs.length > 0 then
    '{' :: (joinSepL [','] (fs.map (fun f => '"' :: bsEscape f ++ ['"']))) ++ ['}']
  else ['{', '}']

/-- `s.match(/^\{(.+)\}$/)`: succeeds iff the whole string is `{` + a
non-empty interior free of line terminators (a JavaScript `.` matches no
`LineTerminator`, and both anchors are at the true ends without the `m`
flag) + `}`; returns the interior capture. -/
def pgArrayInner (s : List Char) : Option (List Char) :=
  match s with
  | '{' :: rest =>
    if rest.getLast? = some '}' ∧ rest.dropLast ≠ [] ∧
        (rest.dropLast).all (fun c => !isLineTerm c) then
      some rest.dropLast
    else none
  | _ => none

/-- Runtime value ending up in `facilities` after the amenities branch of
`mapDbRowToHotelRoom`: either a list of strings, or — because the TypeScript
`facilities = JSON.parse(row.amenities)` assignment is unchecked — an
arbitrary JSON value. -/
inductive AmenVal where
  | strs : List (List Char) → AmenVal
  | ofJson : Jv → AmenVal

/-- The string list held by an `AmenVal`, when it is one. -/
def amenStrs : AmenVal → Option (List (List Char))
  | .strs l => some l
  | .ofJson _ => none

/-- The amenities branch of `mapDbRowToHotelRoom` for a string-valued
`row.amenities`: a falsy (empty) string leaves `facilities = []`; otherwise
try `JSON.parse`; on `SyntaxError` try the `^\{(.+)\}$` PostgreSQL-array
form, splitting the capture on `,`, trimming, stripping one layer of
surrounding quotes and dropping empty results; if the regex fails too,
`facilities` stays `[]`. -/
def mapDbRowAmenities (s : List Char) : AmenVal :=
  if s = [] then .strs []
  else
    match jsonParse s with
    | some v => .ofJson v
    | none =>
      match pgArrayInner s with
      | some inner =>
        .strs (((splitChar ',' inner).map (fun p => stripQuotes (jsTrim p))).filter
          (fun e => e ≠ []))
      | none => .strs []

/-- Hypotheses of the amended amenities round-trip claim, per element. -/
def amenSafe (e : List Char) : Prop :=
  e ≠ [] ∧ ∀ c ∈ e, ¬c = ',' ∧ ¬c = '"' ∧ isLineTerm c = false

instance (e : List Char) : Decidable (amenSafe e) := by
  unfold amenSafe; infer_instance

/-- Tail of the encoder's output after the closing quote of an element. -/
def encTail (L : List (List Char)) : List Char :=
  match L with
  | [] => ['}']
  | e :: es => ',' :: '"' :: (e ++ '"' :: encTail es)

/-- Positions inside the encoder's output. -/
def AForm (X : List Char) : Prop :=
  ∃ g L, '"' ∉ g ∧ ',' ∉ g ∧ (∀ e ∈ L, '"' ∉ e ∧ ',' ∉ e) ∧
    X = g ++ '"' :: encTail L

/-- Outcome invariant for `parseJ` on encoder positions. -/
def jOut (o : Option (Jv × List Char)) : Prop :=
  o = none ∨ ∃ v rem, o = some (v, rem) ∧ AForm rem

/-- Possible outcomes of scanning a JSON string body across quote-free
contents. -/
def psbOut (f : List Char) : Prop :=
  (∀ rem, parseStringBody (f ++ '"' :: rem) = none) ∨
  (∃ key, ∀ rem, parseStringBody (f ++ '"' :: rem) = some (key, rem)) ∨
  (∃ pre, ∀ rem, parseStringBody (f ++ '"' :: rem)
      = (parseStringBody rem).map (fun p => (pre ++ p.1, p.2)))

/-! ## The CSV room transcoder
(`src/components/amenities/hotel-rooms-table.tsx`) -/

/-- The `HotelRoom` interface of `src/app/api/rooms/route.ts`, restricted to
the fields `convertToCSV` reads (the optional booking fields are never
touched by either transcoder function and are omitted).  The `status` union
type is erased at runtime, so it is embedded as a string; `floor`,
`capacity` and `pricePerNight` are integer-valued numbers. -/
structure HotelRoom where
  id : List Char
  roomNumber : List Char
  roomType : List Char
  floor : Int
  capacity : Int
  pricePerNight : Int
  facilities : List (List Char)
  status : List Char
  createdAt : List Char
  updatedAt : List Char
deriving DecidableEq

/-- The header cells of `convertToCSV`. -/
def csvHeaders : List (List Char) :=
  ["Room ID".data, "Room Number".data, "Room Type".data, "Floor".data,
    "Capacity".data, "Facilities".data, "Status".data, "Created At".data,
    "Updated At".data]

/-- The nine cell contents of a room's export row, in column order
(`room.floor.toString()`, `room.facilities.join("; ")`, …). -/
def csvFields (r : HotelRoom) : List (List Char) :=
  [r.id, r.roomNumber, r.roomType, intToChars r.floor, intToChars r.capacity,
    joinSepL [';', ' '] r.facilities, r.status, r.createdAt, r.updatedAt]

/-- `String(cell).replace(/"/g, '""')`: double each double quote. -/
def dqEscape (s : List Char) : List Char :=
  s.foldr (fun c acc => if c = '"' then '"' :: '"' :: acc else c :: acc) []

/-- One exported cell: `` `"${String(cell).replace(/"/g, '""')}"` ``. -/
def csvCellEnc (s : List Char) : List Char := '"' :: dqEscape s ++ ['"']

/-- One exported data row: quoted cells joined with `,`. -/
def csvRow (r : HotelRoom) : List Char :=
  joinSepL [','] ((csvFields r).map csvCellEnc)

/-- The header line: `headers.join(",")`. -/
def csvHeaderLine : List Char := joinSepL [','] csvHeaders

/-- `convertToCSV`: header line and quoted data rows joined with `\n`. -/
def convertToCSV (rooms : List HotelRoom) : List Char :=
  joinSepL ['\n'] (csvHeaderLine :: rooms.map csvRow)

/-- The character-by-character loop of `parseCSVLine`: `inQ` is `inQuotes`,
`cur` is `current`.  A `"` inside quotes followed by another `"` emits one
`"` and consumes both; otherwise `"` toggles the quote state; `,` outside
quotes flushes `current.trim()`; the final field is flushed (trimmed) at the
end of the line. -/
def parseCSVLineAux : Bool → List Char → List Char → List (List Char)
  | _, cur, [] => [jsTrim cur]
  | inQ, cur, c :: rest =>
    if c = '"' then
      if inQ then
        match rest with
        | [] => parseCSVLineAux false cur []
        | d :: rest2 =>
          if d = '"' then parseCSVLineAux true (cur ++ ['"']) rest2
          else parseCSVLineAux false cur (d :: rest2)
      else parseCSVLineAux true cur rest
    else if c = ',' then
      if inQ then parseCSVLineAux true (cur ++ [c]) rest
      else jsTrim cur :: parseCSVLineAux false [] rest
    else parseCSVLineAux inQ (cur ++ [c]) rest

/-- `parseCSVLine` of the source. -/
def parseCSVLine (l : List Char) : List (List Char) := parseCSVLineAux false [] l

/-- `csvText.split("\n").filter(line => line.trim())`. -/
def nonBlankLines (s : List Char) : List (List Char) :=
  (splitChar '\n' s).filter (fun l => jsTrim l ≠ [])

/-- The parsed header names: `parseCSVLine(lines[0]).map(h =>
h.trim().replace(/^"|"$/g, ""))`. -/
def csvHeaderNames (l : List Char) : List (List Char) :=
  (parseCSVLine l).map (fun h => stripQuotes (jsTrim h))

/-- `header.toLowerCase()` (ASCII; the recognized header names are ASCII). -/
def jsToLower (s : List Char) : List Char := s.map Char.toLower

/-- Runtime value of the `facilities` field of an imported room: the
`JSON.parse` branch of the facilities cell assigns an unchecked JSON value
(necessarily an array, as the parsed text starts with `[`), every other
branch a list of strings. -/
inductive FacVal where
  | strs : List (List Char) → FacVal
  | json : Jv → FacVal

/-- The string list held by a `FacVal`, when it is one. -/
def facStrs : FacVal → Option (List (List Char))
  | .strs l => some l
  | .json _ => none

/-- The facilities-cell decoder of `parseCSV`: a `[`…`]` cell is
`JSON.parse`d, with comma-splitting (trim, drop empties) as the `catch`
fallback; otherwise a cell containing `;` is semicolon-split (trim, drop
empties); otherwise a non-empty cell is a single facility name. -/
def csvFacilities (value : List Char) : FacVal :=
  if value.head? = some '[' ∧ value.getLast? = some ']' then
    match jsonParse value with
    | some v => .json v
    | none => .strs (((splitChar ',' value).map jsTrim).filter (fun e => e ≠ []))
  else if value.contains ';' then
    .strs (((splitChar ';' value).map jsTrim).filter (fun e => e ≠ []))
  else if value ≠ [] then .strs [value]
  else .strs []

/-- The `Partial<HotelRoom>` accumulator of the header/value loop. -/
structure PartialRoom where
  id : Option (List Char) := none
  roomNumber : Option (List Char) := none
  roomType : Option (List Char) := none
  floor : Option Int := none
  capacity : Option Int := none
  facilities : Option FacVal := none
  status : Option (List Char) := none
  createdAt : Option (List Char) := none
  updatedAt : Option (List Char) := none

/-- The field a (lower-cased) header name selects in the `headers.forEach`
switch of `parseCSV`. -/
inductive HeaderField where
  | hId
  | hRoomNumber
  | hRoomType
  | hFloor
  | hCapacity
  | hFacilities
  | hStatus
  | hCreatedAt
  | hUpdatedAt
  | hOther
deriving DecidableEq

/-- The case labels of the switch, tried in source order. -/
def headerTag (h : List Char) : HeaderField :=
  if h = "id".data then .hId
  else if h = "room-number".data ∨ h = "room number".data then .hRoomNumber
  else if h = "room-type".data ∨ h = "room type".data then .hRoomType
  else if h = "floor".data then .hFloor
  else if h = "capacity".data then .hCapacity
  else if h = "amenities".data ∨ h = "facilities".data then .hFacilities
  else if h = "status".data then .hStatus
  else if h = "created_at".data ∨ h = "created at".data then .hCreatedAt
  else if h = "updated_at".data ∨ h = "updated at".data then .hUpdatedAt
  else .hOther

/-- One step of the `headers.forEach` switch.  `now` models the
`new Date().toISOString()` the code takes when a timestamp cell is empty. -/
def updateRoom (now : List Char) (room : PartialRoom) (header value : List Char) :
    PartialRoom :=
  match headerTag (jsToLower header) with
  | .hId => { room with id := some value }
  | .hRoomNumber => { room with roomNumber := some value }
  | .hRoomType => { room with roomType := some value }
  | .hFloor => { room with floor := some ((parseIntJs value).getD 0) }
  | .hCapacity => { room with capacity := some ((parseIntJs value).getD 0) }
  | .hFacilities => { room with facilities := some (csvFacilities value) }
  | .hStatus => { room with status := some value }
  | .hCreatedAt => { room with createdAt := some (if value = [] then now else value) }
  | .hUpdatedAt => { room with updatedAt := some (if value = [] then now else value) }
  | .hOther => room

/-- The ambient state one processed row can draw on: the synthesized
placeholder id (`RM-${Date.now()}-${Math.random()…}`) and the current
timestamp (`new Date().toISOString()`).  The code may call `new Date()` up
to four times per row; the claims never distinguish those values, so one
string per row suffices. -/
structure RowAmb where
  freshId : List Char
  now : List Char

/-- Truthiness of a possibly-absent string (`undefined` and `""` are
falsy). -/
def truthyStr : Option (List Char) → Bool
  | some s => !s.isEmpty
  | none => false

/-- `x || dflt` for a possibly-absent string field (an empty string is
falsy). -/
def orNonempty (v : Option (List Char)) (dflt : List Char) : List Char :=
  match v with
  | some s => if s = [] then dflt else s
  | none => dflt

/-- `x || dflt` for a possibly-absent number field (`0` is falsy; `NaN`
cannot occur here because the parse result was already defaulted with
`|| 0`). -/
def orNonzero (v : Option Int) (dflt : Int) : Int :=
  match v with
  | some n => if n = 0 then dflt else n
  | none => dflt

/-- An element of `parseCSV`'s result list.  Same shape as `HotelRoom`, but
the facilities field can hold an unchecked JSON array. -/
structure ParsedRoom where
  id : List Char
  roomNumber : List Char
  roomType : List Char
  floor : Int
  capacity : Int
  pricePerNight : Int
  facilities : FacVal
  status : List Char
  createdAt : List Char
  updatedAt : List Char

/-- The acceptance gate and default-filling of one parsed row: kept only if
both room number and room type are truthy (`if (room.roomNumber &&
room.roomType)`).  `room.facilities || []` keeps the parsed facilities
whenever present: both a string list and a JSON array are truthy JavaScript
arrays. -/
def buildRoom (a : RowAmb) (room : PartialRoom) : Option ParsedRoom :=
  if truthyStr room.roomNumber && truthyStr room.roomType then
    some {
      id := orNonempty room.id a.freshId
      roomNumber := room.roomNumber.getD []
      roomType := room.roomType.getD []
      floor := orNonzero room.floor 1
      capacity := orNonzero room.capacity 1
      pricePerNight := 0
      facilities := room.facilities.getD (.strs [])
      status := orNonempty room.status "available".data
      createdAt := orNonempty room.createdAt a.now
      updatedAt := orNonempty room.updatedAt a.now }
  else none

/-- One iteration of the data-row loop of `parseCSV`: parse the line, skip
it when the field count differs from the header's, run the switch over the
header/value pairs (each value first quote-stripped, then quote-undoubled),
then apply the acceptance gate. -/
def processLine (amb : Nat → RowAmb) (hdrs : List (List Char)) (i : Nat)
    (l : List Char) : Option ParsedRoom :=
  if (parseCSVLine l).length ≠ hdrs.length then none
  else
    buildRoom (amb i) ((hdrs.zip (parseCSVLine l)).foldl
      (fun r p => updateRoom (amb i).now r p.1 (collapseDoubles (stripQuotes p.2))) {})

/-- The data-row loop, indexed by the source's loop counter `i` (which also
keys the ambient state of the row). -/
def parseCSVGo (amb : Nat → RowAmb) (hdrs : List (List Char)) :
    Nat → List (List Char) → List ParsedRoom
  | _, [] => []
  | i, l :: ls =>
    match processLine amb hdrs i l with
    | some r => r :: parseCSVGo amb hdrs (i + 1) ls
    | none => parseCSVGo amb hdrs (i + 1) ls

/-- `parseCSV`: fewer than two non-blank lines give `[]`; otherwise the
first line provides the headers and each later line at most one room. -/
def parseCSV (amb : Nat → RowAmb) (csvText : List Char) : List ParsedRoom :=
  if (nonBlankLines csvText).length < 2 then []
  else
    match nonBlankLines csvText with
    | [] => []
    | hd :: tl => parseCSVGo amb (csvHeaderNames hd) 1 tl

/-- The six room attributes the round-trip claim compares. -/
structure RoomCore where
  roomNumber : List Char
  roomType : List Char
  floor : Int
  capacity : Int
  facilities : Option (List (List Char))
  status : List Char
deriving DecidableEq

/-- The compared attributes of an imported row (facilities through
`facStrs`, since an imported row can also carry a JSON array). -/
def parsedCore (r : ParsedRoom) : RoomCore :=
  ⟨r.roomNumber, r.roomType, r.floor, r.capacity, facStrs r.facilities, r.status⟩

/-- The compared attributes of an exported room. -/
def roomCore (r : HotelRoom) : RoomCore :=
  ⟨r.roomNumber, r.roomType, r.floor, r.capacity, some r.facilities, r.status⟩

/-- A CSV cell that survives the importer's trim/unquote passes unchanged:
trim-stable, quote-free and newline-free. -/
def cellSafe (s : List Char) : Prop := jsTrim s = s ∧ '"' ∉ s ∧ '\n' ∉ s

instance (s : List Char) : Decidable (cellSafe s) := by
  unfold cellSafe; infer_instance

/-- The four legal `status` strings of the `HotelRoom` union type. -/
def statusStrings : List (List Char) :=
  ["available".data, "occupied".data, "maintenance".data, "reserved".data]

/-- Hypotheses of the amended CSV round-trip claim, per room. -/
def roomSafe (r : HotelRoom) : Prop :=
  r.roomNumber ≠ [] ∧ cellSafe r.roomNumber ∧
  r.roomType ≠ [] ∧ cellSafe r.roomType ∧
  r.floor ≠ 0 ∧ r.capacity ≠ 0 ∧
  r.status ∈ statusStrings ∧
  (∀ e ∈ r.facilities, e ≠ [] ∧ jsTrim e = e ∧ ';' ∉ e ∧ '"' ∉ e ∧ '\n' ∉ e) ∧
  ¬((joinSepL [';', ' '] r.facilities).head? = some '[' ∧
    (joinSepL [';', ' '] r.facilities).getLast? = some ']') ∧
  '\n' ∉ r.id ∧ '\n' ∉ r.createdAt ∧ '\n' ∉ r.updatedAt

instance (r : HotelRoom) : Decidable (roomSafe r) := by
  unfold roomSafe; infer_instance

/-- Parsed field count of the header row of an input (0 when the input has
no non-blank line); a data row is kept only if its own field count equals
this. -/
def dataHeaderLen (t : List Char) : Nat :=
  match nonBlankLines t with
  | [] => 0
  | h :: _ => (parseCSVLine h).length

/-- Agreement of two switch accumulators on everything except the
ambient-dependent timestamp fields. -/
def agree7 (a b : PartialRoom) : Prop :=
  a.id = b.id ∧ a.roomNumber = b.roomNumber ∧ a.roomType = b.roomType ∧
  a.floor = b.floor ∧ a.capacity = b.capacity ∧ a.facilities = b.facilities ∧
  a.status = b.status

/-- Specification-side predicate for C8: every double quote occurs as part
of an adjacent doubled pair (no lone quote). -/
def pairedQuotes : List Char → Bool
  | [] => true
  | [c] => !(c == '"')
  | c :: d :: rest =>
    if c = '"' then (if d = '"' then pairedQuotes rest else false)
    else pairedQuotes (d :: rest)

/-! ## Concrete instances used by witnesses and counterexamples -/

/-- A concrete ambient oracle: every row gets placeholder id `X` and
timestamp `T`. -/
def ambA : Nat → RowAmb := fun _ => ⟨['X'], ['T']⟩

/-- A second ambient oracle differing from `ambA` in the synthesized id. -/
def ambB : Nat → RowAmb := fun _ => ⟨['Y'], ['T']⟩

/-- The two-line CSV input of the concrete import example. -/
def c4Input : List Char :=
  ("Room ID,Room Number,Room Type,Floor,Capacity,Facilities,Status,"
    ++ "Created At,Updated At\nRM-1,101,Standard Single,1,2,"
    ++ "\"Air conditioning; Linen\",available,2024-01-01T00:00:00Z,"
    ++ "2024-01-01T00:00:00Z").data

/-- A CSV input whose data row carries a negative floor value. -/
def negFloorInput : List Char :=
  "Room Number,Room Type,Floor\n201,Std,-5".data

/-- A concrete safe room for the round-trip witness. -/
def witnessRoom : HotelRoom :=
  { id := "RM-9".data
    roomNumber := "101".data
    roomType := "Std Single".data
    floor := 3
    capacity := 2
    pricePerNight := 0
    facilities := ["Air conditioning".data, "Linen".data]
    status := "available".data
    createdAt := "2024-01-01".data
    updatedAt := "2024-01-02".data }

/-- The single record `parseCSV ambA c4Input` produces. -/
def c4Record : ParsedRoom :=
  { id := ['X']
    roomNumber := "101".data
    roomType := "Standard Single".data
    floor := 1
    capacity := 2
    pricePerNight := 0
    facilities := .strs ["Air conditioning".data, "Linen".data]
    status := "available".data
    createdAt := "2024-01-01T00:00:00Z".data
    updatedAt := "2024-01-01T00:00:00Z".data }

/-- A room whose floor is `0`, the round-trip counterexample. -/
def zeroFloorRoom : HotelRoom :=
  { id := ['R']
    roomNumber := "101".data
    roomType := "Std".data
    floor := 0
    capacity := 2
    pricePerNight := 0
    facilities := []
    status := "available".data
    createdAt := ['T']
    updatedAt := ['T'] }

/-! ## Helper lemmas about the string primitives -/

lemma jsTrim_wrap (a b : Char) (mid : List Char)
    (ha : wsChar a = false) (hb : wsChar b = false) :
    jsTrim (a :: mid ++ [b]) = a :: mid ++ [b] := by
  unfold jsTrim
  rw [List.cons_append, List.dropWhile_cons_of_neg (by simp [ha])]
  have hrev : (a :: (mid ++ [b])).reverse = b :: (mid.reverse ++ [a]) := by simp
  rw [hrev, List.dropWhile_cons_of_neg (by simp [hb]), ← hrev, List.reverse_reverse]

lemma stripQuotes_wrap (e : List Char) : stripQuotes ('"' :: e ++ ['"']) = e := by
  unfold stripQuotes stripLeadQ stripTrailQ
  simp [List.getLast?_concat, List.dropLast_concat]

lemma bsEscape_eq_self {f : List Char} (h : '"' ∉ f) : bsEscape f = f := by
  induction f with
  | nil => rfl
  | cons c rest ih =>
    simp only [List.mem_cons, not_or] at h
    simp [bsEscape, List.foldr_cons, Ne.symm h.1]
    exact ih h.2

lemma splitChar_ne_nil (sep : Char) (l : List Char) : splitChar sep l ≠ [] := by
  cases l with
  | nil => simp [splitChar]
  | cons c rest =>
    simp only [splitChar]
    rcases h : splitChar sep rest with _ | ⟨p, ps⟩ <;> simp
    split <;> simp

lemma splitChar_no_sep {sep : Char} {p : List Char} (h : sep ∉ p) :
    splitChar sep p = [p] := by
  induction p with
  | nil => rfl
  | cons c rest ih =>
    simp only [List.mem_cons, not_or] at h
    simp only [splitChar, ih h.2, Ne.symm h.1, if_false]

lemma splitChar_sep_append {sep : Char} {p ys : List Char} (h : sep ∉ p) :
    splitChar sep (p ++ sep :: ys) = p :: splitChar sep ys := by
  induction p with
  | nil =>
    simp only [List.nil_append, splitChar]
    rcases hy : splitChar sep ys with _ | ⟨q, qs⟩
    · exact absurd hy (splitChar_ne_nil sep ys)
    · simp
  | cons c rest ih =>
    simp only [List.mem_cons, not_or] at h
    show splitChar sep (c :: (rest ++ sep :: ys)) = (c :: rest) :: splitChar sep ys
    simp only [splitChar, List.append_eq, ih h.2, Ne.symm h.1, if_false]

lemma splitChar_joinSep {sep : Char} {parts : List (List Char)}
    (hne : parts ≠ []) (h : ∀ p ∈ parts, sep ∉ p) :
    splitChar sep (joinSepL [sep] parts) = parts := by
  induction parts with
  | nil => exact absurd rfl hne
  | cons p ps ih =>
    cases ps with
    | nil => simpa [joinSepL] using splitChar_no_sep (h p (by simp))
    | cons q qs =>
      have step : joinSepL [sep] (p :: q :: qs) = p ++ sep :: joinSepL [sep] (q :: qs) := by
        simp [joinSepL]
      rw [step, splitChar_sep_append (h p (by simp))]
      rw [ih (by simp) (fun r hr => h r (by simp [hr]))]

lemma mem_joinSepL {sep : List Char} {parts : List (List Char)} {c : Char}
    (hc : c ∈ joinSepL sep parts) : c ∈ sep ∨ ∃ p ∈ parts, c ∈ p := by
  induction parts with
  | nil => simp [joinSepL] at hc
  | cons p ps ih =>
    cases ps with
    | nil =>
      right
      exact ⟨p, by simp, by simpa [joinSepL] using hc⟩
    | cons q qs =>
      simp only [joinSepL, List.mem_append] at hc
      rcases hc with (hc | hc) | hc
      · exact Or.inr ⟨p, by simp, hc⟩
      · exact Or.inl hc
      · rcases ih hc with h | ⟨r, hr, hcr⟩
        · exact Or.inl h
        · exact Or.inr ⟨r, by simp [hr], hcr⟩

/-! ## Lemmas for the amenities round trip -/

/-- Scanning a JSON string body over quote-free, backslash-free contents
either consumes exactly the contents (stopping at the closing quote) or
rejects (a raw control character). -/
lemma psb_scan (f1 t : List Char) (hq : '"' ∉ f1) (hb : '\\' ∉ f1) :
    parseStringBody (f1 ++ '"' :: t) = some (f1, t) ∨
      parseStringBody (f1 ++ '"' :: t) = none := by
  induction f1 with
  | nil => left; rw [parseStringBody.eq_def]; simp
  | cons c rest ih =>
    simp only [List.mem_cons, not_or] at hq hb
    by_cases hctl : c.toNat < 32
    · right
      rw [List.cons_append, parseStringBody.eq_def]
      simp [Ne.symm hq.1, Ne.symm hb.1, hctl]
    · rcases ih hq.2 hb.2 with h | h
      · left
        rw [List.cons_append, parseStringBody.eq_def]
        simp [Ne.symm hq.1, Ne.symm hb.1, hctl, h]
      · right
        rw [List.cons_append, parseStringBody.eq_def]
        simp [Ne.symm hq.1, Ne.symm hb.1, hctl, h]

lemma jsonSkipWs_nonWs {c : Char} (X : List Char) (h : jsonWs c = false) :
    jsonSkipWs (c :: X) = c :: X :=
  List.dropWhile_cons_of_neg (by simp [h])

lemma parseJ_pv_brace (fuel : Nat) (X : List Char) :
    parseJ (fuel + 1) .pv ('{' :: X) = parseJ fuel .pob (jsonSkipWs X) := by
  rw [parseJ.eq_def]; simp

lemma parseJ_pob_ne (fuel : Nat) {c : Char} (X : List Char) (h : ¬c = '}') :
    parseJ (fuel + 1) .pob (c :: X) = parseJ fuel .pmem (c :: X) := by
  rw [parseJ.eq_def]; simp [h]

lemma parseJ_pmem_badstr (fuel : Nat) {X : List Char}
    (h : parseStringBody X = none) : parseJ (fuel + 1) .pmem ('"' :: X) = none := by
  rw [parseJ.eq_def]; simp [h]

lemma parseJ_pmem_nocolon (fuel : Nat) {X key r2 : List Char} {c : Char} {r3 : List Char}
    (h : parseStringBody X = some (key, r2)) (h2 : jsonSkipWs r2 = c :: r3)
    (hc : ¬c = ':') : parseJ (fuel + 1) .pmem ('"' :: X) = none := by
  rw [parseJ.eq_def]; simp [h, h2, hc]

/-- `JSON.parse` rejects every input of the form `{"f1"…` in which the key
string is followed by `,` or `}` rather than `:` — in particular the
encoder's output for a non-empty facility list. -/
lemma parseJ_encoded_none (fuel : Nat) (f1 : List Char) (c : Char) (t : List Char)
    (hq : '"' ∉ f1) (hb : '\\' ∉ f1) (hc : c = ',' ∨ c = '}') :
    parseJ fuel .pv ('{' :: '"' :: (f1 ++ '"' :: c :: t)) = none := by
  match fuel with
  | 0 => rfl
  | fuel + 1 =>
    rw [parseJ_pv_brace, jsonSkipWs_nonWs _ (by decide)]
    match fuel with
    | 0 => rfl
    | fuel + 1 =>
      rw [parseJ_pob_ne fuel _ (by decide)]
      match fuel with
      | 0 => rfl
      | fuel + 1 =>
        rcases psb_scan f1 (c :: t) hq hb with h | h
        · have hskip : jsonSkipWs (c :: t) = c :: t := by
            rcases hc with rfl | rfl <;> exact jsonSkipWs_nonWs _ (by decide)
          have hcc : ¬c = ':' := by rcases hc with rfl | rfl <;> decide
          exact parseJ_pmem_nocolon fuel h hskip hcc
        · exact parseJ_pmem_badstr fuel h

lemma psbOut_map (d : Char) (f f' : List Char) (hf : psbOut f)
    (heq : ∀ rem, parseStringBody (f' ++ '"' :: rem)
        = (parseStringBody (f ++ '"' :: rem)).map (fun p => (d :: p.1, p.2))) :
    psbOut f' := by
  rcases hf with h | ⟨key, h⟩ | ⟨pre, h⟩
  · left; intro rem; rw [heq, h]; rfl
  · right; left; exact ⟨d :: key, fun rem => by rw [heq, h]; rfl⟩
  · right; right
    exact ⟨d :: pre, fun rem => by rw [heq, h]; cases parseStringBody rem <;> rfl⟩

lemma psbFree : ∀ (n : Nat) (f : List Char), f.length ≤ n → '"' ∉ f → psbOut f := by
  intro n
  induction n with
  | zero =>
    intro f hl _
    rw [List.length_eq_zero.mp (Nat.le_zero.mp hl)]
    right; left
    exact ⟨[], fun rem => by rw [List.nil_append, parseStringBody.eq_def]; simp⟩
  | succ n ih =>
    intro f hl hq
    match f with
    | [] =>
      right; left
      exact ⟨[], fun rem => by rw [List.nil_append, parseStringBody.eq_def]; simp⟩
    | c :: rest =>
      simp only [List.mem_cons, not_or] at hq
      simp only [List.length_cons] at hl
      by_cases hbs : c = '\\'
      · subst hbs
        match rest with
        | [] =>
          right; right
          refine ⟨['"'], fun rem => ?_⟩
          rw [List.cons_append, List.nil_append, parseStringBody.eq_def]
          simp
        | e :: rest2 =>
          simp only [List.mem_cons, not_or] at hq
          obtain ⟨-, he, hq2⟩ := hq
          simp only [List.length_cons] at hl
          have hrec : psbOut rest2 := ih rest2 (by omega) hq2
          by_cases h1 : e = '\\'
          · subst h1
            refine psbOut_map '\\' rest2 _ hrec (fun rem => ?_)
            rw [List.cons_append, List.cons_append, parseStringBody.eq_def]
            simp
          · by_cases h2 : e = '/'
            · subst h2
              refine psbOut_map '/' rest2 _ hrec (fun rem => ?_)
              rw [List.cons_append, List.cons_append, parseStringBody.eq_def]
              simp
            · by_cases h3 : e = 'b'
              · subst h3
                refine psbOut_map '\x08' rest2 _ hrec (fun rem => ?_)
                rw [List.cons_append, List.cons_append, parseStringBody.eq_def]
                simp
              · by_cases h4 : e = 'f'
                · subst h4
                  refine psbOut_map '\x0c' rest2 _ hrec (fun rem => ?_)
                  rw [List.cons_append, List.cons_append, parseStringBody.eq_def]
                  simp
                · by_cases h5 : e = 'n'
                  · subst h5
                    refine psbOut_map '\n' rest2 _ hrec (fun rem => ?_)
                    rw [List.cons_append, List.cons_append, parseStringBody.eq_def]
                    simp
                  · by_cases h6 : e = 'r'
                    · subst h6
                      refine psbOut_map '\x0d' rest2 _ hrec (fun rem => ?_)
                      rw [List.cons_append, List.cons_append,
                        parseStringBody.eq_def]
                      simp
                    · by_cases h7 : e = 't'
                      · subst h7
                        refine psbOut_map '\t' rest2 _ hrec (fun rem => ?_)
                        rw [List.cons_append, List.cons_append,
                          parseStringBody.eq_def]
                        simp
                      · by_cases h8 : e = 'u'
                        · subst h8
                          match rest2 with
                          | [] =>
                            left
                            intro rem
                            rcases rem with _ | ⟨a1, _ | ⟨a2, _ | ⟨a3, rr⟩⟩⟩ <;>
                              (rw [parseStringBody.eq_def]; simp [hexVal])
                          | [x1] =>
                            left
                            intro rem
                            rcases rem with _ | ⟨a1, _ | ⟨a2, rr⟩⟩ <;>
                              rcases hx1 : hexVal x1 with _ | v1 <;>
                              (rw [parseStringBody.eq_def]; simp [hx1, hexVal])
                          | [x1, x2] =>
                            left
                            intro rem
                            rcases rem with _ | ⟨a1, rr⟩ <;>
                              rcases hx1 : hexVal x1 with _ | v1 <;>
                              rcases hx2 : hexVal x2 with _ | v2 <;>
                              (rw [parseStringBody.eq_def]; simp [hx1, hx2, hexVal])
                          | [x1, x2, x3] =>
                            left
                            intro rem
                            rcases hx1 : hexVal x1 with _ | v1 <;>
                              rcases hx2 : hexVal x2 with _ | v2 <;>
                              rcases hx3 : hexVal x3 with _ | v3 <;>
                              (rw [parseStringBody.eq_def];
                                simp [hx1, hx2, hx3, hexVal])
                          | x1 :: x2 :: x3 :: x4 :: rest3 =>
                            simp only [List.mem_cons, not_or] at hq2
                            obtain ⟨-, -, -, -, hq3⟩ := hq2
                            simp only [List.length_cons] at hl
                            rcases hx1 : hexVal x1 with _ | v1
                            · left
                              intro rem
                              rw [parseStringBody.eq_def]
                              simp [hx1]
                            · rcases hx2 : hexVal x2 with _ | v2
                              · left
                                intro rem
                                rw [parseStringBody.eq_def]
                                simp [hx1, hx2]
                              · rcases hx3 : hexVal x3 with _ | v3
                                · left
                                  intro rem
                                  rw [parseStringBody.eq_def]
                                  simp [hx1, hx2, hx3]
                                · rcases hx4 : hexVal x4 with _ | v4
                                  · left
                                    intro rem
                                    rw [parseStringBody.eq_def]
                                    simp [hx1, hx2, hx3, hx4]
                                  · refine psbOut_map
                                      (Char.ofNat (4096 * v1 + 256 * v2 + 16 * v3 + v4))
                                      rest3 _ (ih rest3 (by omega) hq3)
                                      (fun rem => ?_)
                                    rw [parseStringBody.eq_def]
                                    simp [hx1, hx2, hx3, hx4]
                        · left
                          intro rem
                          rw [List.cons_append, List.cons_append,
                            parseStringBody.eq_def]
                          simp [Ne.symm he, h1, h2, h3, h4, h5, h6, h7, h8]
      · by_cases hctl : c.toNat < 32
        · left
          intro rem
          rw [List.cons_append, parseStringBody.eq_def]
          simp [Ne.symm hq.1, hbs, hctl]
        · refine psbOut_map c rest _ (ih rest (by omega) hq.2) (fun rem => ?_)
          rw [List.cons_append, parseStringBody.eq_def]
          simp [Ne.symm hq.1, hbs, hctl]

lemma psb_encTail (L : List (List Char)) :
    parseStringBody (encTail L) = none ∨
      ∃ e es, L = e :: es ∧
        parseStringBody (encTail L) = some ([','], e ++ '"' :: encTail es) := by
  match L with
  | [] =>
    left
    rw [encTail, parseStringBody.eq_def]
    simp [parseStringBody]
  | e :: es =>
    right
    refine ⟨e, es, rfl, ?_⟩
    rw [encTail, parseStringBody.eq_def]
    simp only []
    rw [parseStringBody.eq_def]
    simp
    rw [parseStringBody.eq_def]
    simp

lemma dropWhile_append_stop (p : Char → Bool) (c : Char) (t : List Char)
    (hc : p c = false) :
    ∀ g : List Char, (g ++ c :: t).dropWhile p = g.dropWhile p ++ c :: t := by
  intro g
  induction g with
  | nil => simp [List.dropWhile, hc]
  | cons a g' ih =>
    rw [List.cons_append, List.dropWhile, List.dropWhile]
    cases hpa : p a
    · simp
    · simpa using ih

lemma takeWhile_append_stop (p : Char → Bool) (c : Char) (t : List Char)
    (hc : p c = false) :
    ∀ g : List Char, (g ++ c :: t).takeWhile p = g.takeWhile p := by
  intro g
  induction g with
  | nil => simp [List.takeWhile, hc]
  | cons a g' ih =>
    rw [List.cons_append, List.takeWhile, List.takeWhile]
    cases hpa : p a
    · simp
    · simpa using ih

lemma skipWs_append (g t : List Char) :
    jsonSkipWs (g ++ '"' :: t) = g.dropWhile jsonWs ++ '"' :: t :=
  dropWhile_append_stop jsonWs '"' t (by decide) g

lemma notMem_dropWhile {c : Char} {p : Char → Bool} {g : List Char}
    (h : c ∉ g) : c ∉ g.dropWhile p :=
  fun hc => h ((List.dropWhile_sublist p).subset hc)

lemma append_quote_eq_lit :
    ∀ (lit g T r : List Char), '"' ∉ g → '"' ∉ lit →
      g ++ '"' :: T = lit ++ r →
      ∃ g', g = lit ++ g' ∧ r = g' ++ '"' :: T := by
  intro lit
  induction lit with
  | nil => exact fun g T r _ _ h => ⟨g, rfl, h.symm⟩
  | cons a lit' ih =>
    intro g T r hg hlit h
    simp only [List.mem_cons, not_or] at hlit
    cases g with
    | nil =>
      rw [List.nil_append, List.cons_append] at h
      exact absurd (List.head_eq_of_cons_eq h) hlit.1
    | cons b g₁ =>
      rw [List.cons_append, List.cons_append] at h
      obtain ⟨hb, h'⟩ := List.cons_eq_cons.mp h
      simp only [List.mem_cons, not_or] at hg
      obtain ⟨g', hg', hr⟩ := ih g₁ T r hg.2 hlit.2 h'
      exact ⟨g', by rw [List.cons_append, hb, hg'], hr⟩

lemma parseNumber_AForm (g T : List Char) (hq : '"' ∉ g) (hcm : ',' ∉ g) :
    parseNumber (g ++ '"' :: T) = none ∨
      ∃ ds g₂, parseNumber (g ++ '"' :: T) = some (ds, g₂ ++ '"' :: T) ∧
        '"' ∉ g₂ ∧ ',' ∉ g₂ := by
  simp only [parseNumber]
  split
  · left; rfl
  · rename_i o ip x hx
    -- derive x = g₃ ++ '"' :: T with g₃ quote- and comma-free
    have hxform : ∃ g₃, '"' ∉ g₃ ∧ ',' ∉ g₃ ∧ x = g₃ ++ '"' :: T := by
      have core : ∀ g₁ : List Char, '"' ∉ g₁ → ',' ∉ g₁ →
          (match g₁ ++ '"' :: T with
              | '0' :: r => some (['0'], r)
              | c :: _ =>
                if c.isDigit = true then
                  some ((g₁ ++ '"' :: T).takeWhile Char.isDigit,
                    (g₁ ++ '"' :: T).dropWhile Char.isDigit)
                else none
              | [] => none) = some (ip, x) →
          ∃ g₃, '"' ∉ g₃ ∧ ',' ∉ g₃ ∧ x = g₃ ++ '"' :: T := by
        intro g₁ hq1 hc1 hx1
        split at hx1
        · rename_i r' hr'
          obtain ⟨g₂, hg₂, hrr'⟩ :=
            append_quote_eq_lit ['0'] g₁ T r' hq1 (by decide) hr'
          simp only [Option.some.injEq, Prod.mk.injEq] at hx1
          exact ⟨g₂, fun hc => hq1 (by simp [hg₂, hc]),
            fun hc => hc1 (by simp [hg₂, hc]), by rw [← hx1.2, hrr']⟩
        · split at hx1
          · simp only [Option.some.injEq, Prod.mk.injEq] at hx1
            refine ⟨g₁.dropWhile Char.isDigit, notMem_dropWhile hq1,
              notMem_dropWhile hc1, ?_⟩
            rw [← hx1.2, dropWhile_append_stop _ _ _ (by decide)]
          · exact absurd hx1 (by simp)
        · exact absurd hx1 (by simp)
      rcases g with _ | ⟨c, g'⟩
      · rw [List.nil_append] at hx
        exact absurd hx (by simp)
      · simp only [List.mem_cons, not_or] at hq hcm
        by_cases hdash : c = '-'
        · subst hdash
          rw [List.cons_append] at hx
          exact core g' hq.2 hcm.2 hx
        · rw [List.cons_append] at hx
          simp [hdash] at hx
          exact core (c :: g')
            (fun h => (List.mem_cons.mp h).elim (fun h2 => hq.1 h2) hq.2)
            (fun h => (List.mem_cons.mp h).elim (fun h2 => hcm.1 h2) hcm.2) hx
    obtain ⟨g₃, hq3, hc3, rfl⟩ := hxform
    clear hx
    have expCore : ∀ (F : List Char → List Char) (g₅ : List Char),
        '"' ∉ g₅ → ',' ∉ g₅ →
        (match
            (if (List.takeWhile Char.isDigit
                  (match g₅ ++ '"' :: T with
                    | '-' :: rr => (['-'], rr)
                    | '+' :: rr => (['+'], rr)
                    | x => ([], g₅ ++ '"' :: T)).2).isEmpty = true then
              none
            else
              some (List.takeWhile Char.isDigit
                  (match g₅ ++ '"' :: T with
                    | '-' :: rr => (['-'], rr)
                    | '+' :: rr => (['+'], rr)
                    | x => ([], g₅ ++ '"' :: T)).2,
                List.dropWhile Char.isDigit
                  (match g₅ ++ '"' :: T with
                    | '-' :: rr => (['-'], rr)
                    | '+' :: rr => (['+'], rr)
                    | x => ([], g₅ ++ '"' :: T)).2)) with
          | some (ds, r5) => some (F ds, r5)
          | none => (none : Option (List Char × List Char))) = none ∨
        ∃ ds g₂,
          (match
              (if (List.takeWhile Char.isDigit
                    (match g₅ ++ '"' :: T with
                      | '-' :: rr => (['-'], rr)
                      | '+' :: rr => (['+'], rr)
                      | x => ([], g₅ ++ '"' :: T)).2).isEmpty = true then
                none
              else
                some (List.takeWhile Char.isDigit
                    (match g₅ ++ '"' :: T with
                      | '-' :: rr => (['-'], rr)
                      | '+' :: rr => (['+'], rr)
                      | x => ([], g₅ ++ '"' :: T)).2,
                  List.dropWhile Char.isDigit
                    (match g₅ ++ '"' :: T with
                      | '-' :: rr => (['-'], rr)
                      | '+' :: rr => (['+'], rr)
                      | x => ([], g₅ ++ '"' :: T)).2)) with
            | some (ds, r5) => some (F ds, r5)
            | none => none) = some (ds, g₂ ++ '"' :: T) ∧
          '"' ∉ g₂ ∧ ',' ∉ g₂ := by
      intro F g₅ hq5 hc5
      rcases g₅ with _ | ⟨a, g₆⟩
      · left; simp
      · simp only [List.mem_cons, not_or] at hq5 hc5
        by_cases ha1 : a = '-'
        · subst ha1
          rw [List.cons_append]
          simp only []
          rw [takeWhile_append_stop _ _ _ (by decide),
            dropWhile_append_stop _ _ _ (by decide)]
          by_cases hem : (g₆.takeWhile Char.isDigit).isEmpty
          · left; simp [hem]
          · right
            exact ⟨_, g₆.dropWhile Char.isDigit, by simp [hem]; try rfl,
              notMem_dropWhile hq5.2, notMem_dropWhile hc5.2⟩
        · by_cases ha2 : a = '+'
          · subst ha2
            rw [List.cons_append]
            simp only []
            rw [takeWhile_append_stop _ _ _ (by decide),
              dropWhile_append_stop _ _ _ (by decide)]
            by_cases hem : (g₆.takeWhile Char.isDigit).isEmpty
            · left; simp [hem]
            · right
              exact ⟨_, g₆.dropWhile Char.isDigit, by simp [hem]; try rfl,
                notMem_dropWhile hq5.2, notMem_dropWhile hc5.2⟩
          · rw [List.cons_append]
            simp [ha1, ha2]
            rw [← List.cons_append, takeWhile_append_stop _ _ _ (by decide),
              dropWhile_append_stop _ _ _ (by decide)]
            by_cases hd : a.isDigit
            · right
              refine ⟨F ((a :: g₆).takeWhile Char.isDigit),
                (a :: g₆).dropWhile Char.isDigit, ?_,
                notMem_dropWhile (fun h =>
                  (List.mem_cons.mp h).elim (fun h2 => hq5.1 h2) hq5.2),
                notMem_dropWhile (fun h =>
                  (List.mem_cons.mp h).elim (fun h2 => hc5.1 h2) hc5.2)⟩
              simp [hd]
            · left
              simp [hd]
    split
    · left; rfl
    · split
      · -- exponent branch `'e' :: re`
        rename_i re heq
        split at heq
        · rename_i rf hrf
          obtain ⟨g₄, hg₃, hrf2⟩ :=
            append_quote_eq_lit ['.'] g₃ T rf hq3 (by decide) hrf
          subst hrf2
          have hq4 : '"' ∉ g₄ := fun hc => hq3 (by simp [hg₃, hc])
          have hc4 : ',' ∉ g₄ := fun hc => hc3 (by simp [hg₃, hc])
          split at heq
          · rename_i ds r' hif
            dsimp only at heq
            split at hif
            · exact absurd hif (by simp)
            · simp only [Option.some.injEq, Prod.mk.injEq] at hif
              obtain ⟨-, hr'⟩ := hif
              rw [dropWhile_append_stop _ _ _ (by decide)] at hr'
              rw [← hr'] at heq
              obtain ⟨g₅, hdw5, hre⟩ :=
                append_quote_eq_lit ['e'] (g₄.dropWhile Char.isDigit) T re
                  (notMem_dropWhile hq4) (by decide) heq
              subst hre
              exact expCore _ g₅
                (fun hc => (notMem_dropWhile hq4 : '"' ∉ _) (by rw [hdw5]; simp [hc]))
                (fun hc => (notMem_dropWhile hc4 : ',' ∉ _) (by rw [hdw5]; simp [hc]))
          · rename_i hif
            dsimp only at heq
            exact absurd (List.head_eq_of_cons_eq heq) (by decide)
        · dsimp only at heq
          obtain ⟨g₄, hg₃, hre⟩ :=
            append_quote_eq_lit ['e'] g₃ T re hq3 (by decide) heq
          subst hre
          exact expCore _ g₄
            (fun hc => hq3 (by rw [hg₃]; simp [hc]))
            (fun hc => hc3 (by rw [hg₃]; simp [hc]))
      · -- exponent branch `'E' :: re`
        rename_i re heq
        split at heq
        · rename_i rf hrf
          obtain ⟨g₄, hg₃, hrf2⟩ :=
            append_quote_eq_lit ['.'] g₃ T rf hq3 (by decide) hrf
          subst hrf2
          have hq4 : '"' ∉ g₄ := fun hc => hq3 (by rw [hg₃]; simp [hc])
          have hc4 : ',' ∉ g₄ := fun hc => hc3 (by rw [hg₃]; simp [hc])
          split at heq
          · rename_i ds r' hif
            dsimp only at heq
            split at hif
            · exact absurd hif (by simp)
            · simp only [Option.some.injEq, Prod.mk.injEq] at hif
              obtain ⟨-, hr'⟩ := hif
              rw [dropWhile_append_stop _ _ _ (by decide)] at hr'
              rw [← hr'] at heq
              obtain ⟨g₅, hdw5, hre⟩ :=
                append_quote_eq_lit ['E'] (g₄.dropWhile Char.isDigit) T re
                  (notMem_dropWhile hq4) (by decide) heq
              subst hre
              exact expCore _ g₅
                (fun hc => (notMem_dropWhile hq4 : '"' ∉ _) (by rw [hdw5]; simp [hc]))
                (fun hc => (notMem_dropWhile hc4 : ',' ∉ _) (by rw [hdw5]; simp [hc]))
          · rename_i hif
            dsimp only at heq
            exact absurd (List.head_eq_of_cons_eq heq) (by decide)
        · dsimp only at heq
          obtain ⟨g₄, hg₃, hre⟩ :=
            append_quote_eq_lit ['E'] g₃ T re hq3 (by decide) heq
          subst hre
          exact expCore _ g₄
            (fun hc => hq3 (by rw [hg₃]; simp [hc]))
            (fun hc => hc3 (by rw [hg₃]; simp [hc]))
      · -- no exponent: the remainder is the fraction tail
        right
        split
        · -- leading minus consumed by the sign pass
          split
          · rename_i rf hrf
            obtain ⟨g₄, hg₃, hrf2⟩ :=
              append_quote_eq_lit ['.'] g₃ T rf hq3 (by decide) hrf
            subst hrf2
            have hq4 : '"' ∉ g₄ := fun hc => hq3 (by rw [hg₃]; simp [hc])
            have hc4 : ',' ∉ g₄ := fun hc => hc3 (by rw [hg₃]; simp [hc])
            split
            · rename_i ds r' hif
              split at hif
              · exact absurd hif (by simp)
              · simp only [Option.some.injEq, Prod.mk.injEq] at hif
                obtain ⟨-, hr'⟩ := hif
                rw [dropWhile_append_stop _ _ _ (by decide)] at hr'
                subst hr'
                exact ⟨_, g₄.dropWhile Char.isDigit, rfl,
                  notMem_dropWhile hq4, notMem_dropWhile hc4⟩
            · exact ⟨_, '.' :: g₄, rfl,
                fun h => (List.mem_cons.mp h).elim (by decide) hq4,
                fun h => (List.mem_cons.mp h).elim (by decide) hc4⟩
          · exact ⟨_, g₃, rfl, hq3, hc3⟩
        · -- no sign
          split
          · rename_i rf hrf
            obtain ⟨g₄, hg₃, hrf2⟩ :=
              append_quote_eq_lit ['.'] g₃ T rf hq3 (by decide) hrf
            subst hrf2
            have hq4 : '"' ∉ g₄ := fun hc => hq3 (by rw [hg₃]; simp [hc])
            have hc4 : ',' ∉ g₄ := fun hc => hc3 (by rw [hg₃]; simp [hc])
            split
            · rename_i ds r' hif
              split at hif
              · exact absurd hif (by simp)
              · simp only [Option.some.injEq, Prod.mk.injEq] at hif
                obtain ⟨-, hr'⟩ := hif
                rw [dropWhile_append_stop _ _ _ (by decide)] at hr'
                subst hr'
                exact ⟨_, g₄.dropWhile Char.isDigit, rfl,
                  notMem_dropWhile hq4, notMem_dropWhile hc4⟩
            · exact ⟨_, '.' :: g₄, rfl,
                fun h => (List.mem_cons.mp h).elim (by decide) hq4,
                fun h => (List.mem_cons.mp h).elim (by decide) hc4⟩
          · exact ⟨_, g₃, rfl, hq3, hc3⟩

lemma parseJ_pv_quote (fuel : Nat) (r : List Char) :
    parseJ (fuel + 1) .pv ('"' :: r)
      = (parseStringBody r).map (fun p => (.jstr p.1, p.2)) := by
  rw [parseJ.eq_def]; simp

lemma parseJ_pv_brack (fuel : Nat) (r : List Char) :
    parseJ (fuel + 1) .pv ('[' :: r) = parseJ fuel .pab (jsonSkipWs r) := by
  rw [parseJ.eq_def]; simp

lemma parseJ_pab_brack (fuel : Nat) (r : List Char) :
    parseJ (fuel + 1) .pab (']' :: r) = some (.jarr [], r) := by
  rw [parseJ.eq_def]; simp

lemma parseJ_pab_ne (fuel : Nat) {c : Char} (X : List Char) (h : ¬c = ']') :
    parseJ (fuel + 1) .pab (c :: X) = parseJ fuel .pel (c :: X) := by
  rw [parseJ.eq_def]; simp [h]

lemma parseJ_pmem_nonquote (fuel : Nat) {c : Char} (X : List Char)
    (h : ¬c = '"') : parseJ (fuel + 1) .pmem (c :: X) = none := by
  rw [parseJ.eq_def]; simp [h]

lemma parseJ_pv_elim (fuel : Nat) (X : List Char)
    (P : Option (Jv × List Char) → Prop)
    (h1 : ∀ r, X = 'n' :: 'u' :: 'l' :: 'l' :: r → P (some (.jnull, r)))
    (h2 : ∀ r, X = 't' :: 'r' :: 'u' :: 'e' :: r → P (some (.jbool true, r)))
    (h3 : ∀ r, X = 'f' :: 'a' :: 'l' :: 's' :: 'e' :: r →
      P (some (.jbool false, r)))
    (h4 : ∀ r, X = '"' :: r →
      P ((parseStringBody r).map (fun p => (.jstr p.1, p.2))))
    (h5 : ∀ r, X = '{' :: r → P (parseJ fuel .pob (jsonSkipWs r)))
    (h6 : ∀ r, X = '[' :: r → P (parseJ fuel .pab (jsonSkipWs r)))
    (h7 : ∀ c r, X = c :: r → ¬c = '"' → ¬c = '{' → ¬c = '[' →
      P (if c = '-' ∨ c.isDigit then
          (parseNumber (c :: r)).map (fun p => (.jnum p.1, p.2)) else none))
    (h8 : X = [] → P none) :
    P (parseJ (fuel + 1) .pv X) := by
  rw [parseJ.eq_def]
  split
  · omega
  · rename_i fuel' heq1 heq2
    obtain rfl : fuel' = fuel := by omega
    split
    · exact h1 _ rfl
    · exact h2 _ rfl
    · exact h3 _ rfl
    · exact h4 _ rfl
    · exact h5 _ rfl
    · exact h6 _ rfl
    · rename_i d1 d2 d3 hn1 hn2 hn3
      exact h7 _ _ rfl hn1 hn2 hn3
    · exact h8 rfl
  · exact absurd (by assumption : PMode.pv = PMode.pob) (by simp)
  · exact absurd (by assumption : PMode.pv = PMode.pmem) (by simp)
  · exact absurd (by assumption : PMode.pv = PMode.pab) (by simp)
  · exact absurd (by assumption : PMode.pv = PMode.pel) (by simp)

lemma parseJ_pob_brace (fuel : Nat) (r : List Char) :
    parseJ (fuel + 1) .pob ('}' :: r) = some (.jobj [], r) := by
  rw [parseJ.eq_def]; simp

lemma mem_of_dropWhile_cons {p : Char → Bool} {g g₅ : List Char} {d : Char}
    (h : g.dropWhile p = d :: g₅) : d ∈ g :=
  (List.dropWhile_sublist p).subset (h ▸ List.mem_cons_self d g₅)

lemma tail_dropWhile_notMem {p : Char → Bool} {g g₅ : List Char} {d c : Char}
    (hg : c ∉ g) (h : g.dropWhile p = d :: g₅) : c ∉ g₅ :=
  fun hc => (notMem_dropWhile hg) (h ▸ List.mem_cons_of_mem d hc)

lemma pmem_step (fuel : Nat) (Xs key r2 : List Char)
    (hscan : parseStringBody Xs = some (key, r2))
    (hr2 : (∃ L, (∀ e ∈ L, '"' ∉ e ∧ ',' ∉ e) ∧ r2 = encTail L) ∨ AForm r2)
    (ihpv : ∀ X, AForm X → jOut (parseJ fuel .pv X)) :
    jOut (parseJ (fuel + 1) .pmem ('"' :: Xs)) := by
  unfold jOut
  rw [parseJ.eq_def]
  simp only [hscan]
  rcases hr2 with ⟨L, hL, rfl⟩ | ⟨g, L, hg, hc, hL, rfl⟩
  · cases L with
    | nil => left; rfl
    | cons e es => left; rfl
  · rw [skipWs_append]
    rcases hdg : g.dropWhile jsonWs with _ | ⟨d, g₃⟩
    · left; simp
    · by_cases hdc : d = ':'
      · subst hdc
        rw [List.cons_append]
        simp only []
        have hA : AForm (jsonSkipWs (g₃ ++ '"' :: encTail L)) := by
          rw [skipWs_append]
          exact ⟨g₃.dropWhile jsonWs, L,
            notMem_dropWhile (tail_dropWhile_notMem hg hdg),
            notMem_dropWhile (tail_dropWhile_notMem hc hdg), hL, rfl⟩
        rcases ihpv _ hA with hnone | ⟨v, rem, hsome, g₄, L₄, hq4, hc4, hL4, rfl⟩
        · left; simp [hnone]
        · simp only [hsome]
          rw [skipWs_append]
          rcases hdg4 : g₄.dropWhile jsonWs with _ | ⟨d₂, g₅⟩
          · left; simp
          · have hd2 : ¬d₂ = ',' := fun h => hc4 (h ▸ mem_of_dropWhile_cons hdg4)
            by_cases hd2b : d₂ = '}'
            · subst hd2b
              rw [List.cons_append]
              right
              refine ⟨.jobj [(key, v)], g₅ ++ '"' :: encTail L₄, by simp,
                g₅, L₄, tail_dropWhile_notMem hq4 hdg4,
                tail_dropWhile_notMem hc4 hdg4, hL4, rfl⟩
            · left
              rw [List.cons_append]
              simp [hd2, hd2b]
      · left
        rw [List.cons_append]
        simp [hdc]

lemma AForm_tail {g : List Char} {L : List (List Char)} {T : List Char}
    (hq : '"' ∉ g) (hc : ',' ∉ g)
    (hL : ∀ e ∈ L, '"' ∉ e ∧ ',' ∉ e) (hT : T = encTail L) {lit g' : List Char}
    (hsplit : g = lit ++ g') :
    AForm (g' ++ '"' :: T) :=
  ⟨g', L, fun h => hq (by simp [hsplit, h]), fun h => hc (by simp [hsplit, h]),
    hL, by rw [hT]⟩

lemma step_pv (fuel : Nat)
    (ihpob : ∀ X, AForm X → jOut (parseJ fuel .pob X))
    (ihpab : ∀ X, AForm X → jOut (parseJ fuel .pab X)) :
    ∀ X, AForm X → jOut (parseJ (fuel + 1) .pv X) := by
  intro X hA
  obtain ⟨g, L, hq, hc, hL, rfl⟩ := hA
  refine parseJ_pv_elim fuel _ jOut ?_ ?_ ?_ ?_ ?_ ?_ ?_ ?_
  · intro r hr
    obtain ⟨g', hsplit, rfl⟩ :=
      append_quote_eq_lit ['n', 'u', 'l', 'l'] g (encTail L) r hq (by decide) hr
    exact Or.inr ⟨_, _, rfl, AForm_tail hq hc hL rfl hsplit⟩
  · intro r hr
    obtain ⟨g', hsplit, rfl⟩ :=
      append_quote_eq_lit ['t', 'r', 'u', 'e'] g (encTail L) r hq (by decide) hr
    exact Or.inr ⟨_, _, rfl, AForm_tail hq hc hL rfl hsplit⟩
  · intro r hr
    obtain ⟨g', hsplit, rfl⟩ :=
      append_quote_eq_lit ['f', 'a', 'l', 's', 'e'] g (encTail L) r hq
        (by decide) hr
    exact Or.inr ⟨_, _, rfl, AForm_tail hq hc hL rfl hsplit⟩
  · intro r hr
    cases g with
    | cons c g' =>
      rw [List.cons_append] at hr
      exact absurd (List.head_eq_of_cons_eq hr)
        (fun h => hq (by simp [h]))
    | nil =>
      rw [List.nil_append] at hr
      obtain rfl : r = encTail L := (List.tail_eq_of_cons_eq hr).symm
      rcases psb_encTail L with hTn | ⟨e, es, rfl, hTs⟩
      · left; rw [hTn]; rfl
      · rw [hTs]
        exact Or.inr ⟨_, _, rfl, e, es, (hL e (by simp)).1, (hL e (by simp)).2,
          fun x hx => hL x (by simp [hx]), rfl⟩
  · intro r hr
    cases g with
    | nil =>
      rw [List.nil_append] at hr
      exact absurd (List.head_eq_of_cons_eq hr) (by decide)
    | cons c g' =>
      rw [List.cons_append] at hr
      obtain rfl : c = '{' := List.head_eq_of_cons_eq hr
      obtain rfl : r = g' ++ '"' :: encTail L := (List.tail_eq_of_cons_eq hr).symm
      rw [skipWs_append]
      refine ihpob _ ⟨g'.dropWhile jsonWs, L,
        notMem_dropWhile (fun h => hq (by simp [h])),
        notMem_dropWhile (fun h => hc (by simp [h])), hL, rfl⟩
  · intro r hr
    cases g with
    | nil =>
      rw [List.nil_append] at hr
      exact absurd (List.head_eq_of_cons_eq hr) (by decide)
    | cons c g' =>
      rw [List.cons_append] at hr
      obtain rfl : c = '[' := List.head_eq_of_cons_eq hr
      obtain rfl : r = g' ++ '"' :: encTail L := (List.tail_eq_of_cons_eq hr).symm
      rw [skipWs_append]
      refine ihpab _ ⟨g'.dropWhile jsonWs, L,
        notMem_dropWhile (fun h => hq (by simp [h])),
        notMem_dropWhile (fun h => hc (by simp [h])), hL, rfl⟩
  · intro c r hr hn1 hn2 hn3
    by_cases hnum : c = '-' ∨ c.isDigit
    · rw [if_pos hnum]
      cases g with
      | nil =>
        rw [List.nil_append] at hr
        exact absurd (List.head_eq_of_cons_eq hr).symm hn1
      | cons c' g' =>
        rw [List.cons_append] at hr
        obtain rfl : c = c' := (List.head_eq_of_cons_eq hr).symm
        obtain rfl : r = g' ++ '"' :: encTail L :=
          (List.tail_eq_of_cons_eq hr).symm
        rw [← List.cons_append]
        rcases parseNumber_AForm (c :: g') (encTail L) hq hc with hn | ⟨ds, g₂, hs, hq2, hc2⟩
        · left; rw [hn]; rfl
        · rw [hs]
          exact Or.inr ⟨_, _, rfl, g₂, L, hq2, hc2, hL, rfl⟩
    · rw [if_neg hnum]
      exact Or.inl rfl
  · intro hr
    exact absurd hr (by simp)

lemma step_pob (fuel : Nat)
    (ihpmem : ∀ X, AForm X → jOut (parseJ fuel .pmem X)) :
    ∀ X, AForm X → jOut (parseJ (fuel + 1) .pob X) := by
  intro X hA
  obtain ⟨g, L, hq, hc, hL, rfl⟩ := hA
  cases g with
  | nil =>
    rw [List.nil_append, parseJ_pob_ne fuel _ (by decide)]
    exact ihpmem _ ⟨[], L, by simp, by simp, hL, rfl⟩
  | cons c g' =>
    rw [List.cons_append]
    by_cases hcb : c = '}'
    · subst hcb
      rw [parseJ_pob_brace]
      exact Or.inr ⟨_, _, rfl, g', L, fun h => hq (by simp [h]),
        fun h => hc (by simp [h]), hL, rfl⟩
    · rw [parseJ_pob_ne fuel _ hcb, ← List.cons_append]
      exact ihpmem _ ⟨c :: g', L, hq, hc, hL, rfl⟩

lemma step_pmem (fuel : Nat)
    (ihpv : ∀ X, AForm X → jOut (parseJ fuel .pv X)) :
    ∀ X, AForm X → jOut (parseJ (fuel + 1) .pmem X) := by
  intro X hA
  obtain ⟨g, L, hq, hc, hL, rfl⟩ := hA
  cases g with
  | nil =>
    rw [List.nil_append]
    rcases psb_encTail L with hTn | ⟨e, es, rfl, hTs⟩
    · exact Or.inl (parseJ_pmem_badstr fuel hTn)
    · exact pmem_step fuel _ [','] _ hTs
        (Or.inr ⟨e, es, (hL e (by simp)).1, (hL e (by simp)).2,
          fun x hx => hL x (by simp [hx]), rfl⟩) ihpv
  | cons c g' =>
    rw [List.cons_append]
    exact Or.inl (parseJ_pmem_nonquote fuel _ (fun h => hq (by simp [h])))

lemma step_pab (fuel : Nat)
    (ihpel : ∀ X, AForm X → jOut (parseJ fuel .pel X)) :
    ∀ X, AForm X → jOut (parseJ (fuel + 1) .pab X) := by
  intro X hA
  obtain ⟨g, L, hq, hc, hL, rfl⟩ := hA
  cases g with
  | nil =>
    rw [List.nil_append, parseJ_pab_ne fuel _ (by decide)]
    exact ihpel _ ⟨[], L, by simp, by simp, hL, rfl⟩
  | cons c g' =>
    rw [List.cons_append]
    by_cases hcb : c = ']'
    · subst hcb
      rw [parseJ_pab_brack]
      exact Or.inr ⟨_, _, rfl, g', L, fun h => hq (by simp [h]),
        fun h => hc (by simp [h]), hL, rfl⟩
    · rw [parseJ_pab_ne fuel _ hcb, ← List.cons_append]
      exact ihpel _ ⟨c :: g', L, hq, hc, hL, rfl⟩

lemma step_pel (fuel : Nat)
    (ihpv : ∀ X, AForm X → jOut (parseJ fuel .pv X)) :
    ∀ X, AForm X → jOut (parseJ (fuel + 1) .pel X) := by
  intro X hA
  rcases ihpv X hA with hnone | ⟨v, rem, hsome, g₄, L₄, hq4, hc4, hL4, rfl⟩
  · left
    rw [parseJ.eq_def]
    simp [hnone]
  · unfold jOut
    rw [parseJ.eq_def]
    simp only [hsome]
    rw [skipWs_append]
    rcases hdg4 : g₄.dropWhile jsonWs with _ | ⟨d₂, g₅⟩
    · left; simp
    · have hd2 : ¬d₂ = ',' := fun h => hc4 (h ▸ mem_of_dropWhile_cons hdg4)
      by_cases hd2b : d₂ = ']'
      · subst hd2b
        rw [List.cons_append]
        right
        refine ⟨.jarr [v], g₅ ++ '"' :: encTail L₄, by simp,
          g₅, L₄, tail_dropWhile_notMem hq4 hdg4,
          tail_dropWhile_notMem hc4 hdg4, hL4, rfl⟩
      · left
        rw [List.cons_append]
        simp [hd2, hd2b]

lemma step_pmemq (fuel : Nat)
    (ihpv : ∀ X, AForm X → jOut (parseJ fuel .pv X)) :
    ∀ X, AForm X → jOut (parseJ (fuel + 1) .pmem ('"' :: X)) := by
  intro X hA
  obtain ⟨g, L, hq, hc, hL, rfl⟩ := hA
  rcases psbFree g.length g le_rfl hq with hnone | ⟨key, hkey⟩ | ⟨pre, hpre⟩
  · exact Or.inl (parseJ_pmem_badstr fuel (hnone (encTail L)))
  · exact pmem_step fuel _ key (encTail L) (hkey _) (Or.inl ⟨L, hL, rfl⟩) ihpv
  · rcases psb_encTail L with hTn | ⟨e, es, rfl, hTs⟩
    · refine Or.inl (parseJ_pmem_badstr fuel ?_)
      rw [hpre (encTail L), hTn]; rfl
    · refine pmem_step fuel _ (pre ++ [',']) (e ++ '"' :: encTail es) ?_
        (Or.inr ⟨e, es, (hL e (by simp)).1, (hL e (by simp)).2,
          fun x hx => hL x (by simp [hx]), rfl⟩) ihpv
      rw [hpre (encTail (e :: es)), hTs]; rfl

lemma step_pobq (fuel : Nat)
    (ihpmemq : ∀ X, AForm X → jOut (parseJ fuel .pmem ('"' :: X))) :
    ∀ X, AForm X → jOut (parseJ (fuel + 1) .pob ('"' :: X)) := by
  intro X hA
  rw [parseJ_pob_ne fuel _ (by decide)]
  exact ihpmemq X hA

lemma parseJ_encoder_inv : ∀ fuel : Nat,
    (∀ X, AForm X → jOut (parseJ fuel .pv X)) ∧
    (∀ X, AForm X → jOut (parseJ fuel .pob X)) ∧
    (∀ X, AForm X → jOut (parseJ fuel .pmem X)) ∧
    (∀ X, AForm X → jOut (parseJ fuel .pab X)) ∧
    (∀ X, AForm X → jOut (parseJ fuel .pel X)) ∧
    (∀ X, AForm X → jOut (parseJ fuel .pob ('"' :: X))) ∧
    (∀ X, AForm X → jOut (parseJ fuel .pmem ('"' :: X))) := by
  intro fuel
  induction fuel with
  | zero =>
    exact ⟨fun _ _ => Or.inl rfl, fun _ _ => Or.inl rfl, fun _ _ => Or.inl rfl,
      fun _ _ => Or.inl rfl, fun _ _ => Or.inl rfl, fun _ _ => Or.inl rfl,
      fun _ _ => Or.inl rfl⟩
  | succ n ih =>
    obtain ⟨ipv, ipob, ipmem, ipab, ipel, ipobq, ipmemq⟩ := ih
    exact ⟨step_pv n ipob ipab, step_pob n ipmem, step_pmem n ipv,
      step_pab n ipel, step_pel n ipv, step_pobq n ipmemq, step_pmemq n ipv⟩

lemma join_wrap_encTail : ∀ (L : List (List Char)) (f : List Char),
    joinSepL [','] ((f :: L).map wrapQ) ++ ['}']
      = '"' :: (f ++ '"' :: encTail L) := by
  intro L
  induction L with
  | nil => intro f; simp [joinSepL, wrapQ, encTail]
  | cons f2 L' ih =>
    intro f
    show (wrapQ f ++ [','] ++ joinSepL [','] (wrapQ f2 :: L'.map wrapQ))
        ++ ['}'] = _
    simp only [List.append_assoc]
    rw [← List.map_cons, ih f2]
    simp [wrapQ, encTail]

lemma jsonParse_enc_none (fs : List (List Char)) (hne : fs ≠ [])
    (hsafe : ∀ e ∈ fs, '"' ∉ e ∧ ',' ∉ e) :
    jsonParse (encodeAmenities fs) = none := by
  obtain ⟨f1, rest, rfl⟩ : ∃ a l, fs = a :: l := by
    cases fs with
    | nil => exact absurd rfl hne
    | cons a l => exact ⟨a, l, rfl⟩
  have hshape : encodeAmenities (f1 :: rest)
      = '{' :: '"' :: (f1 ++ '"' :: encTail rest) := by
    unfold encodeAmenities
    rw [if_pos (by simp)]
    have hwrap : (f1 :: rest).map (fun f => '"' :: bsEscape f ++ ['"'])
        = (f1 :: rest).map wrapQ :=
      List.map_congr_left
        (fun e he => by rw [bsEscape_eq_self (hsafe e he).1]; rfl)
    rw [hwrap, List.cons_append, join_wrap_encTail]
  rw [hshape]
  unfold jsonParse
  rw [jsonSkipWs_nonWs _ (by decide)]
  rw [parseJ_pv_brace, jsonSkipWs_nonWs _ (by decide)]
  have hA : AForm (f1 ++ '"' :: encTail rest) :=
    ⟨f1, rest, (hsafe f1 (by simp)).1, (hsafe f1 (by simp)).2,
      fun x hx => hsafe x (by simp [hx]), rfl⟩
  rcases (parseJ_encoder_inv _).2.2.2.2.2.1 _ hA with
    hnone | ⟨v, rem, hsome, hrem⟩
  · rw [hnone]
  · rw [hsome]
    obtain ⟨g₄, L₄, hq4, hc4, hL4, rfl⟩ := hrem
    simp only []
    rw [skipWs_append]
    rw [if_neg (by simp)]

/-- Claim C1 (amended): for a non-empty facility list whose elements are
non-empty and free of commas, double quotes and line terminators, decoding
the encoded PostgreSQL-array text reproduces the list exactly.  Elements may
contain backslashes and any other characters: `JSON.parse` provably rejects
every non-empty encoding, so the regex branch always recovers the list. -/
theorem c1_amenities_roundtrip (fs : List (List Char)) (hne : fs ≠ [])
    (h : ∀ e ∈ fs, amenSafe e) :
    mapDbRowAmenities (encodeAmenities fs) = .strs fs := by
  obtain ⟨f1, rest, rfl⟩ : ∃ f1 rs, fs = f1 :: rs := by
    cases fs with
    | nil => exact absurd rfl hne
    | cons a l => exact ⟨a, l, rfl⟩
  have hq : ∀ e ∈ f1 :: rest, '"' ∉ e := fun e he hc => ((h e he).2 _ hc).2.1 rfl
  have hcomma : ∀ e ∈ f1 :: rest, ',' ∉ e := fun e he hc => ((h e he).2 _ hc).1 rfl
  have hwrap : (f1 :: rest).map (fun f => '"' :: bsEscape f ++ ['"'])
      = (f1 :: rest).map wrapQ :=
    List.map_congr_left (fun e he => by rw [bsEscape_eq_self (hq e he)]; rfl)
  have henc : encodeAmenities (f1 :: rest)
      = ('{' :: joinSepL [','] ((f1 :: rest).map wrapQ)) ++ ['}'] := by
    unfold encodeAmenities
    rw [if_pos (by simp), hwrap]
  set mid := joinSepL [','] ((f1 :: rest).map wrapQ) with hmid
  have hjson : jsonParse (('{' :: mid) ++ ['}']) = none := by
    rw [← henc]
    exact jsonParse_enc_none _ (by simp)
      (fun e he => ⟨hq e he, hcomma e he⟩)
  have hmidne : mid ≠ [] := by
    cases rest with
    | nil => simp [hmid, wrapQ, joinSepL]
    | cons r rs => simp [hmid, wrapQ, joinSepL]
  have hnoLT : ∀ ch ∈ mid, isLineTerm ch = false := by
    intro ch hch
    rcases mem_joinSepL hch with hsep | ⟨p, hp, hcp⟩
    · rcases List.mem_singleton.mp hsep with rfl; decide
    · rcases List.mem_map.mp hp with ⟨e, he, rfl⟩
      rcases List.mem_cons.mp hcp with rfl | hcp'
      · decide
      · rcases List.mem_append.mp hcp' with hce | hq2
        · exact ((h e he).2 ch hce).2.2
        · rcases List.mem_singleton.mp hq2 with rfl; decide
  have hall : mid.all (fun ch => !isLineTerm ch) = true :=
    List.all_eq_true.mpr (fun x hx => by simp [hnoLT x hx])
  have hpg : pgArrayInner (('{' :: mid) ++ ['}']) = some mid := by
    rw [List.cons_append, pgArrayInner.eq_def]
    simp [List.getLast?_concat, List.dropLast_concat, hmidne, hall]
  have hsplit : splitChar ',' mid = (f1 :: rest).map wrapQ := by
    refine splitChar_joinSep (by simp) ?_
    intro p hp hcp
    rcases List.mem_map.mp hp with ⟨e, he, rfl⟩
    rcases List.mem_cons.mp hcp with hcq | hcp'
    · exact absurd hcq (by decide)
    · rcases List.mem_append.mp hcp' with hce | hq2
      · exact hcomma e he hce
      · exact absurd (List.mem_singleton.mp hq2) (by decide)
  have hunwrap : ∀ e ∈ f1 :: rest, stripQuotes (jsTrim (wrapQ e)) = e := by
    intro e _
    show stripQuotes (jsTrim ('"' :: e ++ ['"'])) = e
    rw [jsTrim_wrap _ _ _ (by decide) (by decide), stripQuotes_wrap]
  have hmaps : ((f1 :: rest).map wrapQ).map (fun p => stripQuotes (jsTrim p))
      = f1 :: rest := by
    rw [List.map_map]
    exact (List.map_congr_left (fun e he => hunwrap e he)).trans (List.map_id _)
  rw [henc]
  unfold mapDbRowAmenities
  rw [if_neg (by simp), hjson, hpg]
  show AmenVal.strs (((splitChar ',' mid).map
    (fun p => stripQuotes (jsTrim p))).filter (fun e => e ≠ [])) = AmenVal.strs (f1 :: rest)
  rw [hsplit, hmaps, List.filter_eq_self.mpr (fun e he => by simpa using (h e he).1)]

/-- Witness for C1's amended theorem at the concrete list
`["Sea view", "Linen"]`. -/
theorem c1_amenities_roundtrip_witness :
    mapDbRowAmenities (encodeAmenities ["Sea view".data, "Linen".data])
      = .strs ["Sea view".data, "Linen".data] :=
  c1_amenities_roundtrip _ (by decide) (by decide)

/-- Counterexample to C1 as stated: the quantifier admits the empty list, an
empty element and an element with an embedded newline (none of which contain
a comma or a double quote), yet none of the three round-trips. -/
theorem c1_counterexample :
    mapDbRowAmenities (encodeAmenities []) ≠ .strs [] ∧
      mapDbRowAmenities (encodeAmenities [[]]) ≠ .strs [[]] ∧
      mapDbRowAmenities (encodeAmenities ['a' :: '\n' :: ['b']])
        ≠ .strs ['a' :: '\n' :: ['b']] := by
  refine ⟨?_, ?_, ?_⟩
  · have e1 : amenStrs (mapDbRowAmenities (encodeAmenities [])) = none := by decide
    intro hcl
    rw [hcl] at e1
    exact absurd e1 (by decide)
  · have e2 : amenStrs (mapDbRowAmenities (encodeAmenities [[]])) = some [] := by decide
    intro hcl
    rw [hcl] at e2
    exact absurd e2 (by decide)
  · have e3 : amenStrs (mapDbRowAmenities (encodeAmenities ['a' :: '\n' :: ['b']]))
        = some [] := by decide
    intro hcl
    rw [hcl] at e3
    exact absurd e3 (by decide)

/-- Claim C2: `encode([]) = "{}"` holds; but decoding `"{}"` takes the
successful-`JSON.parse` path and yields the empty JSON *object*, not the
empty facilities list — evaluation of the code at the failing input. -/
theorem c2_empty_encode_decode :
    encodeAmenities [] = ['{', '}'] ∧
      mapDbRowAmenities ['{', '}'] = .ofJson (.jobj []) ∧
      amenStrs (mapDbRowAmenities ['{', '}']) = none :=
  ⟨rfl, rfl, rfl⟩

/-! ## Lemmas for the CSV transcoder: string facts -/

lemma stripLeadQ_eq_self {s : List Char} (h : '"' ∉ s) : stripLeadQ s = s := by
  cases s with
  | nil => rfl
  | cons c t =>
    have hc : ¬c = '"' := fun he => h (by simp [he])
    simp [stripLeadQ, hc]

lemma stripTrailQ_eq_self {s : List Char} (h : '"' ∉ s) : stripTrailQ s = s := by
  unfold stripTrailQ
  rcases hlast : s.getLast? with _ | c
  · rfl
  · have hc : c ∈ s := List.mem_of_mem_getLast? hlast
    have hne : ¬c = '"' := fun he => h (he ▸ hc)
    simp [hne]

lemma stripQuotes_eq_self {s : List Char} (h : '"' ∉ s) : stripQuotes s = s := by
  unfold stripQuotes
  rw [stripLeadQ_eq_self h, stripTrailQ_eq_self h]

lemma collapseDoubles_eq_self {s : List Char} (h : '"' ∉ s) : collapseDoubles s = s := by
  induction s with
  | nil => rfl
  | cons c rest ih =>
    simp only [List.mem_cons, not_or] at h
    cases rest with
    | nil => rfl
    | cons d r =>
      rw [collapseDoubles]
      rw [if_neg (by simp [Ne.symm h.1])]
      rw [ih (by simp_all [List.mem_cons])]

lemma jsTrim_cons_ws {w : Char} {e : List Char} (hw : wsChar w = true) :
    jsTrim (w :: e) = jsTrim e := by
  unfold jsTrim
  rw [List.dropWhile_cons_of_pos hw]

lemma jsTrim_singleton {a : Char} (ha : wsChar a = false) : jsTrim [a] = [a] := by
  unfold jsTrim
  rw [List.dropWhile_cons_of_neg (by simp [ha])]
  simp [List.dropWhile_cons_of_neg, ha]

lemma jsTrim_eq_self_of_ends {l : List Char}
    (hh : ∀ c, l.head? = some c → wsChar c = false)
    (hl : ∀ c, l.getLast? = some c → wsChar c = false) : jsTrim l = l := by
  cases l with
  | nil => rfl
  | cons a rest =>
    rcases List.eq_nil_or_concat rest with rfl | ⟨mid, b, rfl⟩
    · exact jsTrim_singleton (hh a rfl)
    · rw [List.concat_eq_append] at hh hl ⊢
      exact jsTrim_wrap a b mid (hh a rfl)
        (hl b (by rw [show a :: (mid ++ [b]) = (a :: mid) ++ [b] by simp,
          List.getLast?_concat]))

lemma dropWhile_eq_self_of_trim {e : List Char} (h : jsTrim e = e) :
    List.dropWhile wsChar e = e := by
  have hsuf := List.dropWhile_suffix (l := e) wsChar
  refine hsuf.eq_of_length ?_
  have h1 : (List.dropWhile wsChar e).length ≤ e.length := hsuf.length_le
  have h2 : e.length ≤ (List.dropWhile wsChar e).length := by
    conv_lhs => rw [← h]
    unfold jsTrim
    simp only [List.length_reverse]
    exact (List.dropWhile_suffix wsChar).length_le.trans (by simp)
  omega

lemma dropWhile_self_head {l : List Char} {c : Char}
    (h : List.dropWhile wsChar l = l) (hc : l.head? = some c) : wsChar c = false := by
  obtain ⟨r, rfl⟩ : ∃ r, l = c :: r := by
    cases l with
    | nil => cases hc
    | cons x xs => cases hc; exact ⟨xs, rfl⟩
  by_contra hcw
  rw [List.dropWhile_cons_of_pos (by simpa using hcw)] at h
  have hlen := congrArg List.length h
  have hle : (List.dropWhile wsChar r).length ≤ r.length :=
    (List.dropWhile_suffix wsChar).length_le
  simp only [List.length_cons] at hlen
  omega

lemma trim_head_not_ws {e : List Char} {c : Char}
    (h : jsTrim e = e) (he : e.head? = some c) : wsChar c = false :=
  dropWhile_self_head (dropWhile_eq_self_of_trim h) he

lemma trim_last_not_ws {e : List Char} {c : Char}
    (h : jsTrim e = e) (hc : e.getLast? = some c) : wsChar c = false := by
  have hA : List.dropWhile wsChar e = e := dropWhile_eq_self_of_trim h
  have h2 : List.dropWhile wsChar e.reverse = e.reverse := by
    have h3 := h
    unfold jsTrim at h3
    rw [hA] at h3
    have h4 := congrArg List.reverse h3
    rwa [List.reverse_reverse] at h4
  exact dropWhile_self_head h2 (by rw [List.head?_reverse, hc])

/-! ## Lemmas for the CSV transcoder: integer printing round trip -/

lemma isDigit_toNat {c : Char} (h : c.isDigit = true) :
    48 ≤ c.toNat ∧ c.toNat ≤ 57 := by
  simp only [Char.isDigit, Bool.and_eq_true, decide_eq_true_eq, ge_iff_le] at h
  exact ⟨h.1, h.2⟩

lemma digit_not_ws {c : Char} (h : c.isDigit = true) : wsChar c = false := by
  obtain ⟨h1, h2⟩ := isDigit_toNat h
  simp only [wsChar, decide_eq_false_iff_not]
  intro hmem
  simp only [List.mem_cons, List.not_mem_nil, or_false] at hmem
  rcases hmem with h | h | h | h | h | h | h | h | h | h | h | h | h | h | h | h | h
    | h | h | h | h | h | h | h | h <;> omega

lemma digit_ne {c : Char} (h : c.isDigit = true) :
    ¬c = '"' ∧ ¬c = '\n' ∧ ¬c = ';' ∧ ¬c = ',' ∧ ¬c = '-' ∧ ¬c = '+' := by
  obtain ⟨h1, h2⟩ := isDigit_toNat h
  refine ⟨?_, ?_, ?_, ?_, ?_, ?_⟩ <;>
    (intro he; subst he; revert h1 h2; decide)

lemma natToCharsAux_spec : ∀ fuel n, n < fuel →
    (∀ c ∈ natToCharsAux fuel n, c.isDigit = true) ∧ natToCharsAux fuel n ≠ [] ∧
      digitsToNat (natToCharsAux fuel n) = n := by
  intro fuel
  induction fuel with
  | zero => omega
  | succ f ih =>
    intro n hn
    by_cases h10 : n < 10
    · rw [natToCharsAux, if_pos h10]
      refine ⟨?_, by simp, ?_⟩
      · intro c hc
        rcases List.mem_singleton.mp hc with rfl
        interval_cases n <;> decide
      · show digitsToNat [Char.ofNat (48 + n)] = n
        interval_cases n <;> decide
    · rw [natToCharsAux, if_neg h10]
      have hdiv : n / 10 < f := by
        have hlt : n / 10 < n := Nat.div_lt_self (by omega) (by omega)
        omega
      obtain ⟨ihd, ihne, ihv⟩ := ih (n / 10) hdiv
      have hmod : n % 10 < 10 := Nat.mod_lt _ (by omega)
      have hdig : (Char.ofNat (48 + n % 10)).isDigit = true := by
        set m := n % 10 with hm
        interval_cases m <;> decide
      have hval : (Char.ofNat (48 + n % 10)).toNat - 48 = n % 10 := by
        set m := n % 10 with hm
        interval_cases m <;> decide
      refine ⟨?_, by simp, ?_⟩
      · intro c hc
        rcases List.mem_append.mp hc with hc | hc
        · exact ihd c hc
        · rcases List.mem_singleton.mp hc with rfl; exact hdig
      · show digitsToNat (natToCharsAux f (n / 10) ++ [Char.ofNat (48 + n % 10)]) = n
        unfold digitsToNat
        rw [List.foldl_append]
        show 10 * digitsToNat (natToCharsAux f (n / 10)) +
          ((Char.ofNat (48 + n % 10)).toNat - 48) = n
        rw [ihv, hval]
        omega

lemma natToChars_spec (n : Nat) :
    (∀ c ∈ natToChars n, c.isDigit = true) ∧ natToChars n ≠ [] ∧
      digitsToNat (natToChars n) = n :=
  natToCharsAux_spec (n + 1) n (by omega)

lemma intToChars_chars (k : Int) :
    ∀ c ∈ intToChars k, c = '-' ∨ c.isDigit = true := by
  intro c hc
  unfold intToChars at hc
  split at hc
  · rcases List.mem_cons.mp hc with rfl | hc'
    · exact Or.inl rfl
    · exact Or.inr ((natToChars_spec _).1 c hc')
  · exact Or.inr ((natToChars_spec _).1 c hc)

lemma parseIntCore_digits {l : List Char} (hd : ∀ c ∈ l, c.isDigit = true)
    (hne : l ≠ []) : parseIntCore l = some (digitsToNat l : Int) := by
  have htw : List.takeWhile Char.isDigit l = l :=
    List.takeWhile_eq_self_iff.mpr hd
  unfold parseIntCore
  rw [htw, if_neg (by simp [hne])]

lemma parseIntJs_digits {l : List Char} (hd : ∀ c ∈ l, c.isDigit = true)
    (hne : l ≠ []) : parseIntJs l = some (digitsToNat l : Int) := by
  have hdw : List.dropWhile wsChar l = l :=
    List.dropWhile_eq_self_iff.mpr (fun hl hp => by
      have hm := hd _ (List.get_mem l 0 hl)
      rw [List.get_eq_getElem] at hm
      simp [digit_not_ws hm] at hp)
  obtain ⟨c, r, rfl⟩ : ∃ c r, l = c :: r := by
    cases l with
    | nil => exact absurd rfl hne
    | cons c r => exact ⟨c, r, rfl⟩
  have hc := hd c (by simp)
  have hcm : ¬c = '-' := (digit_ne hc).2.2.2.2.1
  have hcp : ¬c = '+' := (digit_ne hc).2.2.2.2.2
  rw [parseIntJs.eq_def, hdw]
  split
  · rename_i heq
    exact absurd (List.cons.inj heq).1 hcm
  · rename_i heq
    exact absurd (List.cons.inj heq).1 hcp
  · exact parseIntCore_digits hd hne

lemma parseIntJs_intToChars (k : Int) : parseIntJs (intToChars k) = some k := by
  unfold intToChars
  split
  · rename_i hneg
    obtain ⟨hdig, hne, hval⟩ := natToChars_spec k.natAbs
    have hdw : List.dropWhile wsChar ('-' :: natToChars k.natAbs)
        = '-' :: natToChars k.natAbs :=
      List.dropWhile_cons_of_neg (by decide)
    rw [parseIntJs.eq_def, hdw]
    split
    · rename_i heq
      rw [← (List.cons.inj heq).2, parseIntCore_digits hdig hne, hval]
      show some (-(k.natAbs : Int)) = some k
      congr 1
      omega
    · rename_i heq
      exact absurd (List.cons.inj heq).1 (by decide)
    · rename_i hno hno2
      exact absurd rfl (hno (natToChars k.natAbs))
  · rename_i hpos
    obtain ⟨hdig, hne, hval⟩ := natToChars_spec k.toNat
    rw [parseIntJs_digits hdig hne, hval]
    congr 1
    omega

/-! ## Lemmas about the field parser `parseCSVLineAux` -/

lemma pcla_nil (inQ : Bool) (cur : List Char) :
    parseCSVLineAux inQ cur [] = [jsTrim cur] := by
  cases inQ <;> rfl

lemma pcla_open (cur X : List Char) :
    parseCSVLineAux false cur ('"' :: X) = parseCSVLineAux true cur X := by
  rw [parseCSVLineAux.eq_def]; simp

lemma pcla_close_end (cur : List Char) :
    parseCSVLineAux true cur ['"'] = [jsTrim cur] := by
  rw [parseCSVLineAux.eq_def]; simp [pcla_nil]

lemma pcla_close (cur : List Char) {d : Char} (X : List Char) (hd : ¬d = '"') :
    parseCSVLineAux true cur ('"' :: d :: X) = parseCSVLineAux false cur (d :: X) := by
  rw [parseCSVLineAux.eq_def]; simp [hd]

lemma pcla_escq (cur X : List Char) :
    parseCSVLineAux true cur ('"' :: '"' :: X) = parseCSVLineAux true (cur ++ ['"']) X := by
  rw [parseCSVLineAux.eq_def]; simp

lemma pcla_comma_out (cur X : List Char) :
    parseCSVLineAux false cur (',' :: X) = jsTrim cur :: parseCSVLineAux false [] X := by
  rw [parseCSVLineAux.eq_def]; simp

lemma pcla_other_in (cur : List Char) {c : Char} (X : List Char) (hc : ¬c = '"') :
    parseCSVLineAux true cur (c :: X) = parseCSVLineAux true (cur ++ [c]) X := by
  rw [parseCSVLineAux.eq_def]
  by_cases hcm : c = ','
  · subst hcm; simp
  · simp [hc, hcm]

lemma pcla_other_out (cur : List Char) {c : Char} (X : List Char) (hc : ¬c = '"')
    (hcm : ¬c = ',') :
    parseCSVLineAux false cur (c :: X) = parseCSVLineAux false (cur ++ [c]) X := by
  rw [parseCSVLineAux.eq_def]; simp [hc, hcm]

lemma dqEscape_cons (c : Char) (s : List Char) :
    dqEscape (c :: s) = if c = '"' then '"' :: '"' :: dqEscape s else c :: dqEscape s := by
  simp [dqEscape]

/-- Scanning the escaped cell contents inside quotes consumes the whole cell
and recovers its original text, provided the closing quote is not followed by
another quote. -/
lemma pcla_inquote (s : List Char) (cur tail : List Char)
    (htail : tail.head? ≠ some '"') :
    parseCSVLineAux true cur (dqEscape s ++ '"' :: tail)
      = parseCSVLineAux false (cur ++ s) tail := by
  induction s generalizing cur with
  | nil =>
    show parseCSVLineAux true cur ('"' :: tail) = parseCSVLineAux false (cur ++ []) tail
    cases tail with
    | nil => rw [pcla_close_end, pcla_nil]; simp
    | cons d r =>
      have hd : ¬d = '"' := fun he => htail (by simp [he])
      rw [pcla_close cur r hd]
      simp
  | cons c s' ih =>
    rw [dqEscape_cons]
    by_cases hc : c = '"'
    · subst hc
      rw [if_pos rfl]
      show parseCSVLineAux true cur ('"' :: '"' :: (dqEscape s' ++ '"' :: tail))
        = parseCSVLineAux false (cur ++ '"' :: s') tail
      rw [pcla_escq, ih]
      simp
    · rw [if_neg hc]
      show parseCSVLineAux true cur (c :: (dqEscape s' ++ '"' :: tail))
        = parseCSVLineAux false (cur ++ c :: s') tail
      rw [pcla_other_in cur _ hc, ih]
      simp

/-- Parsing one quoted cell followed by `tail` accumulates exactly the cell
contents. -/
lemma pcla_cell (s cur tail : List Char) (htail : tail.head? ≠ some '"') :
    parseCSVLineAux false cur (csvCellEnc s ++ tail)
      = parseCSVLineAux false (cur ++ s) tail := by
  show parseCSVLineAux false cur (('"' :: dqEscape s ++ ['"']) ++ tail) = _
  rw [show ('"' :: dqEscape s ++ ['"']) ++ tail = '"' :: (dqEscape s ++ '"' :: tail) by simp]
  rw [pcla_open, pcla_inquote s cur tail htail]

/-- A full data row of quoted cells parses back to the trimmed cell
contents. -/
lemma pcla_row (cells : List (List Char)) (hne : cells ≠ []) :
    parseCSVLineAux false [] (joinSepL [','] (cells.map csvCellEnc))
      = cells.map jsTrim := by
  induction cells with
  | nil => exact absurd rfl hne
  | cons s rest ih =>
    cases rest with
    | nil =>
      show parseCSVLineAux false [] (csvCellEnc s) = [jsTrim s]
      rw [show csvCellEnc s = csvCellEnc s ++ [] by simp,
        pcla_cell s [] [] (by simp), pcla_nil]
      simp
    | cons s2 rest2 =>
      show parseCSVLineAux false []
        (csvCellEnc s ++ [','] ++ joinSepL [','] ((s2 :: rest2).map csvCellEnc))
        = jsTrim s :: (s2 :: rest2).map jsTrim
      rw [show csvCellEnc s ++ [','] ++ joinSepL [','] ((s2 :: rest2).map csvCellEnc)
        = csvCellEnc s ++ (',' :: joinSepL [','] ((s2 :: rest2).map csvCellEnc)) by simp,
        pcla_cell s [] _ (by simp), List.nil_append, pcla_comma_out, ih (by simp)]

/-- `parseCSVLine` of an export row: the nine trimmed cell contents. -/
lemma parseCSVLine_row (r : HotelRoom) :
    parseCSVLine (csvRow r) = (csvFields r).map jsTrim := by
  unfold parseCSVLine csvRow
  exact pcla_row (csvFields r) (by simp [csvFields])

/-! ## Lemmas about joined facility cells -/

lemma joinSep_cons_shape (sep : List Char) (p : List Char) (ps : List (List Char)) :
    ∃ X, joinSepL sep (p :: ps) = p ++ X := by
  cases ps with
  | nil => exact ⟨[], by simp [joinSepL]⟩
  | cons q qs => exact ⟨sep ++ joinSepL sep (q :: qs), by simp [joinSepL]⟩

lemma joinSep_ne_nil {sep : List Char} {p : List Char} (ps : List (List Char))
    (hp : p ≠ []) : joinSepL sep (p :: ps) ≠ [] := by
  obtain ⟨X, hX⟩ := joinSep_cons_shape sep p ps
  rw [hX]
  simp [hp]

lemma joinSep_head? {sep : List Char} {p : List Char} (ps : List (List Char))
    (hp : p ≠ []) : (joinSepL sep (p :: ps)).head? = p.head? := by
  obtain ⟨X, hX⟩ := joinSep_cons_shape sep p ps
  rw [hX, List.head?_append]
  cases p with
  | nil => exact absurd rfl hp
  | cons c t => simp

lemma joinSemi_last_not_ws {fs : List (List Char)}
    (h : ∀ e ∈ fs, e ≠ [] ∧ jsTrim e = e) (hne : fs ≠ []) :
    ∀ c, (joinSepL [';', ' '] fs).getLast? = some c → wsChar c = false := by
  induction fs with
  | nil => exact absurd rfl hne
  | cons p ps ih =>
    cases ps with
    | nil =>
      intro c hc
      exact trim_last_not_ws (h p (by simp)).2 (by simpa [joinSepL] using hc)
    | cons q qs =>
      intro c hc
      have hq : q ≠ [] := (h q (by simp)).1
      have hjoin : joinSepL [';', ' '] (p :: q :: qs)
          = p ++ ([';', ' '] ++ joinSepL [';', ' '] (q :: qs)) := by
        simp [joinSepL]
      rw [hjoin, List.getLast?_append, List.getLast?_append] at hc
      have hne2 : joinSepL [';', ' '] (q :: qs) ≠ [] := joinSep_ne_nil qs hq
      have hlast : (joinSepL [';', ' '] (q :: qs)).getLast? ≠ none := by
        simpa [List.getLast?_eq_none_iff] using hne2
      rcases hx : (joinSepL [';', ' '] (q :: qs)).getLast? with _ | d
      · exact absurd hx hlast
      · rw [hx] at hc
        simp only [Option.or_some, Option.some.injEq] at hc
        subst hc
        exact ih (fun e he => h e (by simp [he])) (by simp) _ hx

lemma join_fac_trim {fs : List (List Char)}
    (h : ∀ e ∈ fs, e ≠ [] ∧ jsTrim e = e) :
    jsTrim (joinSepL [';', ' '] fs) = joinSepL [';', ' '] fs := by
  cases fs with
  | nil => rfl
  | cons p ps =>
    refine jsTrim_eq_self_of_ends ?_ (joinSemi_last_not_ws h (by simp))
    intro c hc
    rw [joinSep_head? ps (h p (by simp)).1] at hc
    refine trim_head_not_ws (h p (by simp)).2 hc

lemma splitChar_semi_join {fs : List (List Char)} {e1 : List Char}
    (h : ∀ e ∈ e1 :: fs, ';' ∉ e) :
    splitChar ';' (joinSepL [';', ' '] (e1 :: fs))
      = e1 :: fs.map (fun e => ' ' :: e) := by
  induction fs generalizing e1 with
  | nil => simpa [joinSepL] using splitChar_no_sep (h e1 (by simp))
  | cons e2 fs' ih =>
    have hjoin : joinSepL [';', ' '] (e1 :: e2 :: fs')
        = e1 ++ ';' :: (' ' :: joinSepL [';', ' '] (e2 :: fs')) := by
      simp [joinSepL]
    rw [hjoin, splitChar_sep_append (h e1 (by simp))]
    have ihx := @ih e2 (fun e he => h e (by
      rcases List.mem_cons.mp he with rfl | hin
      · simp
      · simp [hin]))
    show e1 :: splitChar ';' (' ' :: joinSepL [';', ' '] (e2 :: fs'))
      = e1 :: (' ' :: e2) :: (fs'.map fun e => ' ' :: e)
    congr 1
    rw [splitChar.eq_def]
    simp only []
    rw [ihx]
    simp

lemma statusStrings_facts {s : List Char} (h : s ∈ statusStrings) :
    s ≠ [] ∧ jsTrim s = s ∧ '"' ∉ s ∧ '\n' ∉ s := by
  simp only [statusStrings, List.mem_cons, List.mem_singleton] at h
  rcases h with rfl | rfl | rfl | rfl | h <;>
    first
      | refine ⟨by decide, by decide, by decide, by decide⟩
      | simp at h

lemma csvFacilities_join {fs : List (List Char)}
    (hel : ∀ e ∈ fs, e ≠ [] ∧ jsTrim e = e ∧ ';' ∉ e ∧ '"' ∉ e ∧ '\n' ∉ e)
    (hbr : ¬((joinSepL [';', ' '] fs).head? = some '[' ∧
      (joinSepL [';', ' '] fs).getLast? = some ']')) :
    csvFacilities (joinSepL [';', ' '] fs) = .strs fs := by
  unfold csvFacilities
  rw [if_neg hbr]
  cases fs with
  | nil => rfl
  | cons e1 rest =>
    cases rest with
    | nil =>
      have he1 := hel e1 (by simp)
      have hnc : (joinSepL [';', ' '] [e1]).contains ';' = false := by
        show e1.contains ';' = false
        by_contra hx
        simp only [Bool.not_eq_false] at hx
        exact he1.2.2.1 (List.elem_iff.mp hx)
      rw [hnc]
      simp [joinSepL, he1.1]
    | cons e2 rest2 =>
      have hjoin : joinSepL [';', ' '] (e1 :: e2 :: rest2)
          = e1 ++ ';' :: (' ' :: joinSepL [';', ' '] (e2 :: rest2)) := by
        simp [joinSepL]
      have hmem : ';' ∈ joinSepL [';', ' '] (e1 :: e2 :: rest2) := by
        rw [hjoin]; simp
      have hc : (joinSepL [';', ' '] (e1 :: e2 :: rest2)).contains ';' = true :=
        List.elem_iff.mpr hmem
      rw [hc]
      simp only [if_true]
      congr 1
      rw [splitChar_semi_join (fun e he => (hel e he).2.2.1)]
      have hmap : (e1 :: ((e2 :: rest2).map fun e => ' ' :: e)).map jsTrim
          = e1 :: e2 :: rest2 := by
        simp only [List.map_cons, List.map_map]
        rw [(hel e1 (by simp)).2.1]
        congr 1
        refine ((List.map_congr_left ?_).trans (List.map_id _) :
          ((e2 :: rest2).map ((jsTrim ∘ fun e => ' ' :: e))) = e2 :: rest2)
        intro e he
        show jsTrim (' ' :: e) = e
        rw [jsTrim_cons_ws (by decide), (hel e (by simp [he])).2.1]
      rw [hmap, List.filter_eq_self.mpr (fun e he => by simp [(hel e he).1])]

/-! ## The per-row import lemma -/

lemma jsTrim_eq_self_of_all {l : List Char} (h : ∀ c ∈ l, wsChar c = false) :
    jsTrim l = l :=
  jsTrim_eq_self_of_ends (fun c hc => h c (List.mem_of_mem_head? hc))
    (fun c hc => h c (List.mem_of_mem_getLast? hc))

lemma intToChars_facts (k : Int) :
    jsTrim (intToChars k) = intToChars k ∧ '"' ∉ intToChars k ∧
      '\n' ∉ intToChars k := by
  refine ⟨jsTrim_eq_self_of_all ?_, ?_, ?_⟩
  · intro c hc
    rcases intToChars_chars k c hc with rfl | hd
    · decide
    · exact digit_not_ws hd
  · intro hc
    rcases intToChars_chars k '"' hc with he | hd
    · cases he
    · exact (digit_ne hd).1 rfl
  · intro hc
    rcases intToChars_chars k '\n' hc with he | hd
    · cases he
    · exact (digit_ne hd).2.1 rfl

lemma procVal {s : List Char} (hq : '"' ∉ s) :
    collapseDoubles (stripQuotes s) = s := by
  rw [stripQuotes_eq_self hq, collapseDoubles_eq_self hq]

/-- The nine-header switch fold, evaluated: `Room ID` matches no case, the
other columns land in their fields after the unquote passes. -/
lemma foldHeaders (now v1 v2 v3 v4 v5 v6 v7 v8 v9 : List Char) :
    ((csvHeaders.zip [v1, v2, v3, v4, v5, v6, v7, v8, v9]).foldl
      (fun r p => updateRoom now r p.1 (collapseDoubles (stripQuotes p.2))) {}) =
    { id := none, roomNumber := some (collapseDoubles (stripQuotes v2)),
      roomType := some (collapseDoubles (stripQuotes v3)),
      floor := some ((parseIntJs (collapseDoubles (stripQuotes v4))).getD 0),
      capacity := some ((parseIntJs (collapseDoubles (stripQuotes v5))).getD 0),
      facilities := some (csvFacilities (collapseDoubles (stripQuotes v6))),
      status := some (collapseDoubles (stripQuotes v7)),
      createdAt := some (if collapseDoubles (stripQuotes v8) = [] then now
        else collapseDoubles (stripQuotes v8)),
      updatedAt := some (if collapseDoubles (stripQuotes v9) = [] then now
        else collapseDoubles (stripQuotes v9)) } := rfl

lemma buildRoom_of_some (a : RowAmb) (oid : Option (List Char)) (rn rt : List Char)
    (hrn : rn ≠ []) (hrt : rt ≠ []) {ofl ocap : Option Int} {ofac : Option FacVal}
    {ost oca oua : Option (List Char)} :
    buildRoom a { id := oid
                  roomNumber := some rn
                  roomType := some rt
                  floor := ofl
                  capacity := ocap
                  facilities := ofac
                  status := ost
                  createdAt := oca
                  updatedAt := oua } =
    some { id := orNonempty oid a.freshId
           roomNumber := rn
           roomType := rt
           floor := orNonzero ofl 1
           capacity := orNonzero ocap 1
           pricePerNight := 0
           facilities := ofac.getD (.strs [])
           status := orNonempty ost "available".data
           createdAt := orNonempty oca a.now
           updatedAt := orNonempty oua a.now } := by
  unfold buildRoom
  rw [if_pos (by simp [truthyStr, hrn, hrt])]
  rfl

/-- A safe room's export row is accepted by the importer and reproduces the
six compared attributes. -/
lemma processLine_safe (amb : Nat → RowAmb) (i : Nat) (r : HotelRoom)
    (h : roomSafe r) :
    (processLine amb csvHeaders i (csvRow r)).map parsedCore
      = some (roomCore r) := by
  obtain ⟨hrn, hrnc, hrt, hrtc, hfl, hcap, hst, hfac, hbr, hid, hca, hua⟩ := h
  have hsf := statusStrings_facts hst
  unfold processLine
  rw [parseCSVLine_row]
  rw [if_neg (by simp [csvFields, csvHeaders])]
  have hfields : (csvFields r).map jsTrim
      = [jsTrim r.id, r.roomNumber, r.roomType, intToChars r.floor,
        intToChars r.capacity, joinSepL [';', ' '] r.facilities, r.status,
        jsTrim r.createdAt, jsTrim r.updatedAt] := by
    simp only [csvFields, List.map_cons, List.map_nil]
    rw [hrnc.1, hrtc.1, (intToChars_facts r.floor).1, (intToChars_facts r.capacity).1,
      join_fac_trim (fun e he => ⟨(hfac e he).1, (hfac e he).2.1⟩), hsf.2.1]
  rw [hfields, foldHeaders]
  have hq6 : '"' ∉ joinSepL [';', ' '] r.facilities := by
    intro hc
    rcases mem_joinSepL hc with hsep | ⟨p, hp, hcp⟩
    · simp at hsep
    · exact (hfac p hp).2.2.2.1 hcp
  rw [procVal hrnc.2.1, procVal hrtc.2.1, procVal (intToChars_facts r.floor).2.1,
    procVal (intToChars_facts r.capacity).2.1, procVal hq6, procVal hsf.2.2.1]
  rw [buildRoom_of_some _ _ _ _ hrn hrt]
  simp only [Option.map_some']
  unfold parsedCore roomCore
  simp only [Option.some.injEq, RoomCore.mk.injEq]
  refine ⟨trivial, trivial, ?_, ?_, ?_, ?_⟩
  · show orNonzero (some ((parseIntJs (intToChars r.floor)).getD 0)) 1 = r.floor
    rw [parseIntJs_intToChars]
    simp [orNonzero, hfl]
  · show orNonzero (some ((parseIntJs (intToChars r.capacity)).getD 0)) 1 = r.capacity
    rw [parseIntJs_intToChars]
    simp [orNonzero, hcap]
  · show facStrs ((some (csvFacilities (joinSepL [';', ' '] r.facilities))).getD
      (.strs [])) = some r.facilities
    rw [Option.getD_some, csvFacilities_join hfac hbr]
    rfl
  · show orNonempty (some r.status) "available".data = r.status
    simp [orNonempty, hsf.1]

/-! ## Line structure of the exported document -/

lemma mem_dqEscape {s : List Char} {c : Char} (hc : c ∈ dqEscape s) :
    c = '"' ∨ c ∈ s := by
  induction s with
  | nil => simp [dqEscape] at hc
  | cons d rest ih =>
    rw [dqEscape_cons] at hc
    by_cases hd : d = '"'
    · subst hd
      rw [if_pos rfl] at hc
      rcases List.mem_cons.mp hc with rfl | hc2
      · exact Or.inl rfl
      · rcases List.mem_cons.mp hc2 with rfl | hc3
        · exact Or.inl rfl
        · rcases ih hc3 with h | h
          · exact Or.inl h
          · exact Or.inr (by simp [h])
    · rw [if_neg hd] at hc
      rcases List.mem_cons.mp hc with rfl | hc2
      · exact Or.inr (by simp)
      · rcases ih hc2 with h | h
        · exact Or.inl h
        · exact Or.inr (by simp [h])

lemma mem_csvCellEnc {s : List Char} {c : Char} (hc : c ∈ csvCellEnc s) :
    c = '"' ∨ c ∈ s := by
  unfold csvCellEnc at hc
  rcases List.mem_cons.mp hc with rfl | hc2
  · exact Or.inl rfl
  · rcases List.mem_append.mp hc2 with h | h
    · exact mem_dqEscape h
    · exact Or.inl (List.mem_singleton.mp h)

lemma enc_join_shape (cells : List (List Char)) (c0 : List Char) :
    ∃ Y, joinSepL [','] ((c0 :: cells).map csvCellEnc) = '"' :: Y ++ ['"'] := by
  induction cells generalizing c0 with
  | nil => exact ⟨dqEscape c0, by simp [joinSepL, csvCellEnc]⟩
  | cons c1 rest ih =>
    obtain ⟨Y, hY⟩ := ih c1
    refine ⟨dqEscape c0 ++ ['"'] ++ [','] ++ ('"' :: Y), ?_⟩
    show csvCellEnc c0 ++ [','] ++ joinSepL [','] ((c1 :: rest).map csvCellEnc) = _
    rw [hY]
    simp [csvCellEnc]

lemma csvRow_trim (r : HotelRoom) : jsTrim (csvRow r) = csvRow r := by
  obtain ⟨Y, hY⟩ := enc_join_shape [r.roomNumber, r.roomType, intToChars r.floor,
    intToChars r.capacity, joinSepL [';', ' '] r.facilities, r.status,
    r.createdAt, r.updatedAt] r.id
  show jsTrim (joinSepL [','] ((csvFields r).map csvCellEnc)) = _
  rw [show (csvFields r).map csvCellEnc = ((r.id :: [r.roomNumber, r.roomType,
    intToChars r.floor, intToChars r.capacity, joinSepL [';', ' '] r.facilities,
    r.status, r.createdAt, r.updatedAt]).map csvCellEnc) from rfl, hY]
  exact (jsTrim_wrap '"' '"' Y (by decide) (by decide)).trans hY.symm

lemma csvRow_nonblank (r : HotelRoom) : jsTrim (csvRow r) ≠ [] := by
  rw [csvRow_trim]
  obtain ⟨Y, hY⟩ := enc_join_shape [r.roomNumber, r.roomType, intToChars r.floor,
    intToChars r.capacity, joinSepL [';', ' '] r.facilities, r.status,
    r.createdAt, r.updatedAt] r.id
  show joinSepL [','] ((csvFields r).map csvCellEnc) ≠ []
  rw [show (csvFields r).map csvCellEnc = ((r.id :: [r.roomNumber, r.roomType,
    intToChars r.floor, intToChars r.capacity, joinSepL [';', ' '] r.facilities,
    r.status, r.createdAt, r.updatedAt]).map csvCellEnc) from rfl, hY]
  simp

lemma csvRow_no_newline (r : HotelRoom) (h : roomSafe r) : '\n' ∉ csvRow r := by
  obtain ⟨hrn, hrnc, hrt, hrtc, hfl, hcap, hst, hfac, hbr, hid, hca, hua⟩ := h
  intro hc
  rcases mem_joinSepL hc with hsep | ⟨p, hp, hcp⟩
  · simp at hsep
  · rcases List.mem_map.mp hp with ⟨f, hf, rfl⟩
    rcases mem_csvCellEnc hcp with he | hcf
    · cases he
    · simp only [csvFields, List.mem_cons, List.not_mem_nil, or_false] at hf
      rcases hf with rfl | rfl | rfl | rfl | rfl | rfl | rfl | rfl | rfl
      · exact hid hcf
      · exact hrnc.2.2 hcf
      · exact hrtc.2.2 hcf
      · exact (intToChars_facts r.floor).2.2 hcf
      · exact (intToChars_facts r.capacity).2.2 hcf
      · rcases mem_joinSepL hcf with hsep2 | ⟨e, he, hce⟩
        · simp at hsep2
        · exact (hfac e he).2.2.2.2 hce
      · exact (statusStrings_facts hst).2.2.2 hcf
      · exact hca hcf
      · exact hua hcf

lemma convert_lines (rooms : List HotelRoom) (h : ∀ r ∈ rooms, roomSafe r) :
    nonBlankLines (convertToCSV rooms) = csvHeaderLine :: rooms.map csvRow := by
  have hnl : ∀ p ∈ csvHeaderLine :: rooms.map csvRow, '\n' ∉ p := by
    intro p hp
    rcases List.mem_cons.mp hp with rfl | hp2
    · decide
    · rcases List.mem_map.mp hp2 with ⟨r, hr, rfl⟩
      exact csvRow_no_newline r (h r hr)
  unfold convertToCSV nonBlankLines
  rw [splitChar_joinSep (by simp) hnl]
  refine List.filter_eq_self.mpr ?_
  intro l hl
  rcases List.mem_cons.mp hl with rfl | hl2
  · decide
  · rcases List.mem_map.mp hl2 with ⟨r, hr, rfl⟩
    simp [csvRow_nonblank r]

lemma parseCSVGo_safe (amb : Nat → RowAmb) (rooms : List HotelRoom)
    (h : ∀ r ∈ rooms, roomSafe r) : ∀ i,
    (parseCSVGo amb csvHeaders i (rooms.map csvRow)).map parsedCore
      = rooms.map roomCore := by
  induction rooms with
  | nil => intro i; rfl
  | cons r rest ih =>
    intro i
    show (match processLine amb csvHeaders i (csvRow r) with
      | some pr => pr :: parseCSVGo amb csvHeaders (i + 1) (rest.map csvRow)
      | none => parseCSVGo amb csvHeaders (i + 1) (rest.map csvRow)).map parsedCore
      = roomCore r :: rest.map roomCore
    have hsome := processLine_safe amb i r (h r (by simp))
    rcases hx : processLine amb csvHeaders i (csvRow r) with _ | pr
    · rw [hx] at hsome; cases hsome
    · rw [hx] at hsome
      simp only [Option.map_some', Option.some.injEq] at hsome
      simp only [List.map_cons, hsome]
      rw [ih (fun r2 hr2 => h r2 (by simp [hr2])) (i + 1)]

/-- Claim C3 (amended): exporting then importing reproduces roomNumber,
roomType, floor, capacity, status and facilities for every room list whose
rooms are importer-safe: room number and room type non-empty, trim-stable
and free of quotes and newlines; floor and capacity non-zero; status one of
the four legal strings; facility names non-empty, trim-stable and free of
semicolons, quotes and newlines, their join not bracket-wrapped; id and
timestamps newline-free. -/
theorem c3_csv_roundtrip (amb : Nat → RowAmb) (rooms : List HotelRoom)
    (h : ∀ r ∈ rooms, roomSafe r) :
    (parseCSV amb (convertToCSV rooms)).map parsedCore = rooms.map roomCore := by
  cases rooms with
  | nil => rfl
  | cons r rest =>
    unfold parseCSV
    rw [convert_lines (r :: rest) h]
    rw [if_neg (by simp)]
    have hhn : csvHeaderNames csvHeaderLine = csvHeaders := by decide
    show (parseCSVGo amb (csvHeaderNames csvHeaderLine) 1 ((r :: rest).map csvRow)).map
      parsedCore = (r :: rest).map roomCore
    rw [hhn]
    exact parseCSVGo_safe amb (r :: rest) h 1

/-- Witness for C3's amended theorem at a concrete safe room. -/
theorem c3_csv_roundtrip_witness :
    (parseCSV ambA (convertToCSV [witnessRoom])).map parsedCore
      = [witnessRoom].map roomCore :=
  c3_csv_roundtrip ambA [witnessRoom] (by decide)

/-- Counterexample to C3 as stated: a room with floor 0 (admitted by the
claim's universal quantifier) is re-imported with floor 1 — `room.floor || 1`
turns the parsed 0 into the default. -/
theorem c3_counterexample :
    (parseCSV ambA (convertToCSV [zeroFloorRoom])).map parsedCore
        ≠ [zeroFloorRoom].map roomCore ∧
      (parseCSV ambA (convertToCSV [zeroFloorRoom])).map (fun r => r.floor) = [1] ∧
      zeroFloorRoom.floor = 0 :=
  ⟨by decide, by decide, rfl⟩

set_option maxRecDepth 8192 in
/-- Claim C4: the concrete two-line import example yields exactly one
record, with the claimed room number, room type and facilities, whatever the
ambient state supplies for the synthesized id. -/
theorem c4_concrete_import (amb : Nat → RowAmb) :
    (parseCSV amb c4Input).length = 1 ∧
      (parseCSV amb c4Input).map
        (fun r => (r.roomNumber, r.roomType, facStrs r.facilities))
        = [("101".data, "Standard Single".data,
            some ["Air conditioning".data, "Linen".data])] :=
  ⟨rfl, rfl⟩

/-! ## The acceptance gate (C5) and numeric fields (C9) -/

lemma buildRoom_fields {a : RowAmb} {room : PartialRoom} {pr : ParsedRoom}
    (h : buildRoom a room = some pr) : pr.roomNumber ≠ [] ∧ pr.roomType ≠ [] := by
  unfold buildRoom at h
  split at h
  · rename_i hgate
    simp only [Bool.and_eq_true] at hgate
    cases h
    constructor
    · show room.roomNumber.getD [] ≠ []
      rcases hx : room.roomNumber with _ | s
      · rw [hx] at hgate; simp [truthyStr] at hgate
      · rw [hx] at hgate
        have hs : s ≠ [] := by
          simpa [truthyStr, List.isEmpty_iff] using hgate.1
        simpa using hs
    · show room.roomType.getD [] ≠ []
      rcases hx : room.roomType with _ | s
      · rw [hx] at hgate; simp [truthyStr] at hgate
      · rw [hx] at hgate
        have hs : s ≠ [] := by
          simpa [truthyStr, List.isEmpty_iff] using hgate.2
        simpa using hs
  · cases h

lemma orNonzero_one_ne_zero (v : Option Int) : orNonzero v 1 ≠ 0 := by
  unfold orNonzero
  rcases v with _ | n
  · decide
  · by_cases hn : n = 0 <;> simp [hn]

lemma buildRoom_numeric {a : RowAmb} {room : PartialRoom} {pr : ParsedRoom}
    (h : buildRoom a room = some pr) : pr.floor ≠ 0 ∧ pr.capacity ≠ 0 := by
  unfold buildRoom at h
  split at h
  · cases h
    exact ⟨orNonzero_one_ne_zero _, orNonzero_one_ne_zero _⟩
  · cases h

lemma processLine_some {amb : Nat → RowAmb} {hdrs : List (List Char)} {i : Nat}
    {l : List Char} {pr : ParsedRoom} (h : processLine amb hdrs i l = some pr) :
    ∃ room, buildRoom (amb i) room = some pr := by
  unfold processLine at h
  split at h
  · cases h
  · exact ⟨_, h⟩

lemma mem_parseCSVGo {amb : Nat → RowAmb} {hdrs : List (List Char)}
    {r : ParsedRoom} : ∀ {i : Nat} {ls : List (List Char)},
    r ∈ parseCSVGo amb hdrs i ls →
    ∃ i2 l, l ∈ ls ∧ processLine amb hdrs i2 l = some r := by
  intro i ls
  induction ls generalizing i with
  | nil => intro h; simp [parseCSVGo] at h
  | cons l ls' ih =>
    intro h
    rw [parseCSVGo.eq_def] at h
    simp only [] at h
    rcases hx : processLine amb hdrs i l with _ | pr
    · rw [hx] at h
      obtain ⟨i2, l2, hl2, hp⟩ := ih h
      exact ⟨i2, l2, by simp [hl2], hp⟩
    · rw [hx] at h
      rcases List.mem_cons.mp h with rfl | h2
      · exact ⟨i, l, by simp, hx⟩
      · obtain ⟨i2, l2, hl2, hp⟩ := ih h2
        exact ⟨i2, l2, by simp [hl2], hp⟩

lemma mem_parseCSV {amb : Nat → RowAmb} {t : List Char} {r : ParsedRoom}
    (hr : r ∈ parseCSV amb t) :
    ∃ a room, buildRoom a room = some r := by
  unfold parseCSV at hr
  split at hr
  · simp at hr
  · split at hr
    · simp at hr
    · obtain ⟨i2, l2, _, hp⟩ := mem_parseCSVGo hr
      obtain ⟨room, hb⟩ := processLine_some hp
      exact ⟨_, room, hb⟩

/-- Claim C5: every record returned by `parseCSV` has a non-empty room
number and room type — rows failing the gate are dropped without error. -/
theorem c5_import_gate (amb : Nat → RowAmb) (t : List Char) :
    ∀ r ∈ parseCSV amb t, r.roomNumber ≠ [] ∧ r.roomType ≠ [] := by
  intro r hr
  obtain ⟨a, room, hb⟩ := mem_parseCSV hr
  exact buildRoom_fields hb

set_option maxRecDepth 8192 in
/-- Witness for C5 at the concrete import example. -/
theorem c5_import_gate_witness :
    c4Record.roomNumber ≠ [] ∧ c4Record.roomType ≠ [] :=
  c5_import_gate ambA c4Input c4Record (by
    have hx : parseCSV ambA c4Input = [c4Record] := rfl
    rw [hx]
    exact List.mem_singleton.mpr rfl)

/-- Claim C9 (amended): every imported record has non-zero integer floor and
capacity (`x || 1` turns 0 and NaN into the default), but they can be
negative when the CSV supplies a negative integer. -/
theorem c9_numeric_fields (amb : Nat → RowAmb) (t : List Char) :
    ∀ r ∈ parseCSV amb t, r.floor ≠ 0 ∧ r.capacity ≠ 0 := by
  intro r hr
  obtain ⟨a, room, hb⟩ := mem_parseCSV hr
  exact buildRoom_numeric hb

set_option maxRecDepth 8192 in
/-- Witness for C9's amended theorem at the concrete import example. -/
theorem c9_numeric_fields_witness :
    c4Record.floor ≠ 0 ∧ c4Record.capacity ≠ 0 :=
  c9_numeric_fields ambA c4Input c4Record (by
    have hx : parseCSV ambA c4Input = [c4Record] := rfl
    rw [hx]
    exact List.mem_singleton.mpr rfl)

/-- Counterexample to C9 as stated: a CSV row with floor `-5` imports as a
record with negative floor, so floor ≥ 0 does not hold for every input. -/
theorem c9_counterexample :
    (parseCSV ambA negFloorInput).map (fun r => r.floor) = [-5] ∧
      ¬(∀ r ∈ parseCSV ambA negFloorInput, 0 ≤ r.floor) :=
  ⟨by decide, by decide⟩

/-- Claim C7: fewer than two non-blank lines always yield the empty list
(the function returns, it does not throw). -/
theorem c7_degenerate_input (amb : Nat → RowAmb) (t : List Char)
    (h : (nonBlankLines t).length < 2) : parseCSV amb t = [] := by
  unfold parseCSV
  rw [if_pos h]

/-- Witness for C7: a header line with no data rows parses to `[]`. -/
theorem c7_degenerate_input_witness : parseCSV ambA csvHeaderLine = [] :=
  c7_degenerate_input ambA csvHeaderLine (by decide)

/-! ## Export quoting discipline (C8) -/

lemma pairedQuotes_cons_ne {c : Char} (l : List Char) (hc : ¬c = '"') :
    pairedQuotes (c :: l) = pairedQuotes l := by
  cases l with
  | nil => simp [pairedQuotes, hc]
  | cons d rest => simp [pairedQuotes, hc]

lemma collapseDoubles_cons_ne {c : Char} (l : List Char) (hc : ¬c = '"') :
    collapseDoubles (c :: l) = c :: collapseDoubles l := by
  cases l with
  | nil => rfl
  | cons d rest =>
    rw [collapseDoubles]
    rw [if_neg (by simp [hc])]

lemma dqEscape_spec (s : List Char) :
    pairedQuotes (dqEscape s) = true ∧ collapseDoubles (dqEscape s) = s := by
  induction s with
  | nil => exact ⟨rfl, rfl⟩
  | cons c rest ih =>
    rw [dqEscape_cons]
    by_cases hc : c = '"'
    · subst hc
      rw [if_pos rfl]
      constructor
      · show pairedQuotes ('"' :: '"' :: dqEscape rest) = true
        simp [pairedQuotes, ih.1]
      · show collapseDoubles ('"' :: '"' :: dqEscape rest) = '"' :: rest
        rw [collapseDoubles, if_pos (by simp), ih.2]
    · rw [if_neg hc]
      exact ⟨(pairedQuotes_cons_ne _ hc).trans ih.1,
        (collapseDoubles_cons_ne _ hc).trans (by rw [ih.2])⟩

lemma takeWhile_before_newline (xs rest : List Char) (h : '\n' ∉ xs) :
    List.takeWhile (fun c => !(c == '\n')) (xs ++ '\n' :: rest) = xs := by
  induction xs with
  | nil => simp
  | cons c t ih =>
    have hc : ¬c = '\n' := fun he => h (by simp [he])
    rw [List.cons_append, List.takeWhile_cons_of_pos (by simp [hc])]
    rw [ih (fun hm => h (by simp [hm]))]

/-- Claim C8: `convertToCSV` is the newline-join of the header line and one
row per room; each row is the comma-join of the quoted cells; the first line
of the output is always the header; and each encoded cell is one pair of
wrapping quotes around the cell text with every internal quote doubled
(collapsing the doubles recovers the text, and no lone quote remains). -/
theorem c8_export_quoting (rooms : List HotelRoom) (r : HotelRoom) (s : List Char) :
    convertToCSV rooms = joinSepL ['\n'] (csvHeaderLine :: rooms.map csvRow) ∧
    csvRow r = joinSepL [','] ((csvFields r).map csvCellEnc) ∧
    List.takeWhile (fun c => !(c == '\n')) (convertToCSV rooms) = csvHeaderLine ∧
    csvCellEnc s = '"' :: dqEscape s ++ ['"'] ∧
    pairedQuotes (dqEscape s) = true ∧
    collapseDoubles (dqEscape s) = s := by
  refine ⟨rfl, rfl, ?_, rfl, (dqEscape_spec s).1, (dqEscape_spec s).2⟩
  cases rooms with
  | nil => decide
  | cons q qs =>
    show List.takeWhile (fun c => !(c == '\n'))
      (csvHeaderLine ++ ['\n'] ++ joinSepL ['\n'] ((q :: qs).map csvRow))
      = csvHeaderLine
    rw [show csvHeaderLine ++ ['\n'] ++ joinSepL ['\n'] ((q :: qs).map csvRow)
      = csvHeaderLine ++ '\n' :: joinSepL ['\n'] ((q :: qs).map csvRow) by simp]
    exact takeWhile_before_newline _ _ (by decide)

/-! ## Mismatched-row handling (C6) -/

lemma splitChar_append_sep2 (sep : Char) (ys : List Char) : ∀ xs,
    splitChar sep (xs ++ sep :: ys) = splitChar sep xs ++ splitChar sep ys := by
  intro xs
  induction xs with
  | nil =>
    simp only [List.nil_append, splitChar]
    rcases hy : splitChar sep ys with _ | ⟨p, ps⟩
    · exact absurd hy (splitChar_ne_nil sep ys)
    · simp
  | cons c xs' ih =>
    show splitChar sep (c :: (xs' ++ sep :: ys)) = splitChar sep (c :: xs') ++ _
    rw [splitChar.eq_def]
    simp only [List.append_eq]
    rw [ih]
    rcases hx : splitChar sep xs' with _ | ⟨p, ps⟩
    · exact absurd hx (splitChar_ne_nil sep xs')
    · rw [show splitChar sep (c :: xs')
        = if c = sep then [] :: p :: ps else (c :: p) :: ps by
          rw [splitChar.eq_def]; simp only []; rw [hx]]
      by_cases hc : c = sep <;> simp [hc]

lemma nonBlank_append {l : List Char} (t : List Char) (hl : '\n' ∉ l) :
    nonBlankLines (t ++ '\n' :: l)
      = nonBlankLines t ++ (if jsTrim l = [] then [] else [l]) := by
  unfold nonBlankLines
  rw [splitChar_append_sep2, List.filter_append, splitChar_no_sep hl]
  congr 1
  by_cases hb : jsTrim l = [] <;> simp [List.filter, hb]

lemma go_append (amb : Nat → RowAmb) (hdrs : List (List Char)) :
    ∀ ds i es, parseCSVGo amb hdrs i (ds ++ es)
      = parseCSVGo amb hdrs i ds ++ parseCSVGo amb hdrs (i + ds.length) es := by
  intro ds
  induction ds with
  | nil => intro i es; simp [parseCSVGo]
  | cons d ds' ih =>
    intro i es
    show (match processLine amb hdrs i d with
      | some r => r :: parseCSVGo amb hdrs (i + 1) (ds' ++ es)
      | none => parseCSVGo amb hdrs (i + 1) (ds' ++ es)) = _
    rcases hx : processLine amb hdrs i d with _ | r
    · show parseCSVGo amb hdrs (i + 1) (ds' ++ es) = _
      rw [ih (i + 1)]
      show _ = (match processLine amb hdrs i d with
        | some r => r :: parseCSVGo amb hdrs (i + 1) ds'
        | none => parseCSVGo amb hdrs (i + 1) ds') ++ _
      rw [hx]
      simp only [List.length_cons]
      rw [show i + 1 + ds'.length = i + (ds'.length + 1) by omega]
    · show r :: parseCSVGo amb hdrs (i + 1) (ds' ++ es) = _
      rw [ih (i + 1)]
      show _ = (match processLine amb hdrs i d with
        | some r => r :: parseCSVGo amb hdrs (i + 1) ds'
        | none => parseCSVGo amb hdrs (i + 1) ds') ++ _
      rw [hx]
      simp only [List.length_cons, List.cons_append]
      rw [show i + 1 + ds'.length = i + (ds'.length + 1) by omega]

lemma processLine_some_len {amb : Nat → RowAmb} {hdrs : List (List Char)}
    {i : Nat} {l : List Char} {pr : ParsedRoom}
    (h : processLine amb hdrs i l = some pr) :
    (parseCSVLine l).length = hdrs.length := by
  unfold processLine at h
  split at h
  · cases h
  · rename_i hlen
    exact of_not_not hlen

lemma processLine_mismatch {amb : Nat → RowAmb} {hdrs : List (List Char)}
    {i : Nat} {l : List Char}
    (h : (parseCSVLine l).length ≠ hdrs.length) :
    processLine amb hdrs i l = none := by
  unfold processLine
  rw [if_pos h]

lemma go_len_le (amb : Nat → RowAmb) (hdrs : List (List Char)) :
    ∀ ds i, (parseCSVGo amb hdrs i ds).length
      ≤ ds.countP (fun dl => (parseCSVLine dl).length = hdrs.length) := by
  intro ds
  induction ds with
  | nil => intro i; simp [parseCSVGo]
  | cons d ds' ih =>
    intro i
    rw [List.countP_cons]
    show (match processLine amb hdrs i d with
      | some r => r :: parseCSVGo amb hdrs (i + 1) ds'
      | none => parseCSVGo amb hdrs (i + 1) ds').length ≤ _
    rcases hx : processLine amb hdrs i d with _ | r
    · show (parseCSVGo amb hdrs (i + 1) ds').length ≤ _
      have h2 := ih (i + 1)
      by_cases hp : (parseCSVLine d).length = hdrs.length <;> simp [hp] <;> omega
    · have hlen := processLine_some_len hx
      rw [if_pos (by simp [hlen])]
      have := ih (i + 1)
      simp only [List.length_cons]
      omega

lemma csvHeaderNames_len (h : List Char) :
    (csvHeaderNames h).length = (parseCSVLine h).length := by
  simp [csvHeaderNames]

/-- Claim C6: appending a data line whose parsed field count differs from
the header's (or which is blank) never changes the result, and the output
length never exceeds the number of data rows whose field count matches the
header's. -/
theorem c6_mismatched_rows (amb : Nat → RowAmb) (t l : List Char)
    (hnl : '\n' ∉ l)
    (hmis : jsTrim l = [] ∨ (parseCSVLine l).length ≠ dataHeaderLen t) :
    parseCSV amb (t ++ '\n' :: l) = parseCSV amb t ∧
      (parseCSV amb t).length ≤ ((nonBlankLines t).drop 1).countP
        (fun dl => (parseCSVLine dl).length = dataHeaderLen t) := by
  constructor
  · by_cases hb : jsTrim l = []
    · unfold parseCSV
      rw [nonBlank_append t hnl, if_pos hb, List.append_nil]
    · rcases hmis with hb2 | hmm
      · exact absurd hb2 hb
      · have hlines : nonBlankLines (t ++ '\n' :: l) = nonBlankLines t ++ [l] := by
          rw [nonBlank_append t hnl, if_neg hb]
        rcases hnb : nonBlankLines t with _ | ⟨h0, tl⟩
        · unfold parseCSV
          rw [hlines, hnb]
          simp
        · rcases tl with _ | ⟨l1, tl2⟩
          · unfold parseCSV
            rw [hlines, hnb]
            simp only [List.length_append, List.length_cons, List.length_nil,
              List.cons_append, List.nil_append]
            rw [if_neg (by simp), if_pos (by simp)]
            show parseCSVGo amb (csvHeaderNames h0) 1 [l] = []
            have hml : (parseCSVLine l).length ≠ (csvHeaderNames h0).length := by
              rw [csvHeaderNames_len]
              unfold dataHeaderLen at hmm
              rw [hnb] at hmm
              exact hmm
            show (match processLine amb (csvHeaderNames h0) 1 l with
              | some r => r :: parseCSVGo amb (csvHeaderNames h0) 2 []
              | none => parseCSVGo amb (csvHeaderNames h0) 2 []) = []
            rw [processLine_mismatch hml]
            rfl
          · unfold parseCSV
            rw [hlines, hnb]
            simp only [List.length_append, List.length_cons, List.cons_append]
            rw [if_neg (by simp), if_neg (by simp)]
            show parseCSVGo amb (csvHeaderNames h0) 1 ((l1 :: tl2) ++ [l])
              = parseCSVGo amb (csvHeaderNames h0) 1 (l1 :: tl2)
            rw [go_append]
            have hml : (parseCSVLine l).length ≠ (csvHeaderNames h0).length := by
              rw [csvHeaderNames_len]
              unfold dataHeaderLen at hmm
              rw [hnb] at hmm
              exact hmm
            rw [show parseCSVGo amb (csvHeaderNames h0) (1 + (l1 :: tl2).length) [l]
              = [] by
                show (match processLine amb (csvHeaderNames h0)
                    (1 + (l1 :: tl2).length) l with
                  | some r => r :: parseCSVGo amb (csvHeaderNames h0)
                      (1 + (l1 :: tl2).length + 1) []
                  | none => parseCSVGo amb (csvHeaderNames h0)
                      (1 + (l1 :: tl2).length + 1) []) = []
                rw [processLine_mismatch hml]
                rfl]
            simp
  · rcases hnb : nonBlankLines t with _ | ⟨h0, tl⟩
    · unfold parseCSV
      rw [hnb]
      simp
    · unfold parseCSV
      rw [hnb]
      by_cases hlen : (h0 :: tl).length < 2
      · rw [if_pos hlen]; simp
      · rw [if_neg hlen]
        show (parseCSVGo amb (csvHeaderNames h0) 1 tl).length ≤ _
        have := go_len_le amb (csvHeaderNames h0) tl 1
        rw [csvHeaderNames_len] at this
        unfold dataHeaderLen
        rw [hnb]
        simpa using this

set_option maxRecDepth 8192 in
/-- Witness for C6 at the concrete import example plus a two-field line. -/
theorem c6_mismatched_rows_witness :
    parseCSV ambA (c4Input ++ '\n' :: "a,b".data) = parseCSV ambA c4Input ∧
      (parseCSV ambA c4Input).length ≤ ((nonBlankLines c4Input).drop 1).countP
        (fun dl => (parseCSVLine dl).length = dataHeaderLen c4Input) :=
  c6_mismatched_rows ambA c4Input "a,b".data (by decide) (Or.inr (by decide))

/-! ## Ambient independence of the importer core (C10) -/

lemma updateRoom_agree (n1 n2 : List Char) (a b : PartialRoom)
    (hab : agree7 a b) (h v : List Char) :
    agree7 (updateRoom n1 a h v) (updateRoom n2 b h v) := by
  obtain ⟨aid, arn, art, afl, acap, afac, ast, acr, aup⟩ := a
  obtain ⟨bid, brn, brt, bfl, bcap, bfac, bst, bcr, bup⟩ := b
  obtain ⟨h1, h2, h3, h4, h5, h6, h7⟩ := hab
  dsimp only at h1 h2 h3 h4 h5 h6 h7
  subst h1 h2 h3 h4 h5 h6 h7
  unfold updateRoom
  cases headerTag (jsToLower h) <;> exact ⟨rfl, rfl, rfl, rfl, rfl, rfl, rfl⟩

lemma fold_agree (n1 n2 : List Char) (ps : List (List Char × List Char)) :
    ∀ a b : PartialRoom, agree7 a b →
    agree7 (ps.foldl
        (fun r p => updateRoom n1 r p.1 (collapseDoubles (stripQuotes p.2))) a)
      (ps.foldl
        (fun r p => updateRoom n2 r p.1 (collapseDoubles (stripQuotes p.2))) b) := by
  induction ps with
  | nil => exact fun a b hab => hab
  | cons p ps ih =>
    intro a b hab
    exact ih _ _ (updateRoom_agree n1 n2 a b hab p.1
      (collapseDoubles (stripQuotes p.2)))

lemma buildRoom_core_agree (a1 a2 : RowAmb) (r1 r2 : PartialRoom)
    (hab : agree7 r1 r2) :
    (buildRoom a1 r1).map parsedCore = (buildRoom a2 r2).map parsedCore := by
  obtain ⟨h1, h2, h3, h4, h5, h6, h7⟩ := hab
  unfold buildRoom
  rw [h2, h3]
  by_cases hg : (truthyStr r2.roomNumber && truthyStr r2.roomType) = true
  · rw [if_pos hg, if_pos hg]
    simp only [Option.map_some']
    unfold parsedCore
    simp [h4, h5, h6, h7]
  · rw [if_neg hg, if_neg hg]

lemma processLine_core_agree (amb1 amb2 : Nat → RowAmb)
    (hdrs : List (List Char)) (i : Nat) (l : List Char) :
    (processLine amb1 hdrs i l).map parsedCore
      = (processLine amb2 hdrs i l).map parsedCore := by
  unfold processLine
  by_cases hc : (parseCSVLine l).length ≠ hdrs.length
  · rw [if_pos hc, if_pos hc]
  · rw [if_neg hc, if_neg hc]
    exact buildRoom_core_agree _ _ _ _
      (fold_agree (amb1 i).now (amb2 i).now _ {} {}
        ⟨rfl, rfl, rfl, rfl, rfl, rfl, rfl⟩)

lemma go_core_agree (amb1 amb2 : Nat → RowAmb) (hdrs : List (List Char)) :
    ∀ (ls : List (List Char)) (i : Nat),
    (parseCSVGo amb1 hdrs i ls).map parsedCore
      = (parseCSVGo amb2 hdrs i ls).map parsedCore := by
  intro ls
  induction ls with
  | nil => intro i; rfl
  | cons l ls ih =>
    intro i
    have h := processLine_core_agree amb1 amb2 hdrs i l
    show (match processLine amb1 hdrs i l with
        | some r => r :: parseCSVGo amb1 hdrs (i + 1) ls
        | none => parseCSVGo amb1 hdrs (i + 1) ls).map parsedCore
      = (match processLine amb2 hdrs i l with
        | some r => r :: parseCSVGo amb2 hdrs (i + 1) ls
        | none => parseCSVGo amb2 hdrs (i + 1) ls).map parsedCore
    rcases h1 : processLine amb1 hdrs i l with _ | r1 <;>
      rcases h2 : processLine amb2 hdrs i l with _ | r2 <;>
      rw [h1, h2] at h <;>
      simp only [Option.map_none', Option.map_some', Option.some.injEq] at h
    · exact ih (i + 1)
    · exact absurd h (by simp)
    · exact absurd h (by simp)
    · simp only [List.map_cons, h, ih (i + 1)]

/-- C10: the importer's record cores (room number, type, floor, capacity,
facilities, status) are independent of the ambient clock/random state: for
any two ambient oracles the parsed lists agree after projecting away the
synthesized id and the defaulted timestamps.  (`convertToCSV` is embedded
as a plain function of the room list, reflecting that the exporter reads
no ambient state at all.) -/
theorem c10_parse_ambient_independence (amb1 amb2 : Nat → RowAmb)
    (t : List Char) :
    (parseCSV amb1 t).map parsedCore = (parseCSV amb2 t).map parsedCore := by
  unfold parseCSV
  by_cases hl : (nonBlankLines t).length < 2
  · rw [if_pos hl, if_pos hl]
  · rw [if_neg hl, if_neg hl]
    rcases hnb : nonBlankLines t with _ | ⟨hd, tl⟩
    · rfl
    · exact go_core_agree amb1 amb2 (csvHeaderNames hd) tl 1

set_option maxRecDepth 8192 in
/-- C10, refuting the full claim: parseCSV itself is not ambient-independent
— on the concrete import example two clock/random oracles yield records that
differ (in the synthesized id). -/
theorem c10_counterexample : parseCSV ambA c4Input ≠ parseCSV ambB c4Input := by
  intro h
  have h1 : (parseCSV ambA c4Input).map (fun r => r.id) = [['X']] := rfl
  have h2 : (parseCSV ambB c4Input).map (fun r => r.id) = [['Y']] := rfl
  rw [h, h2] at h1
  exact absurd h1 (by decide)

end TravelTech
